import Mathlib

/-!
# FreeWill: the fused softmax + log-loss operator

A shallow embedding of `FreeWill/Operator/SoftmaxLogLoss.h` and a verification
of the operator's contract.

* `init` is the shape validator (lines 49-116), for both device instantiations.
* `evaluate` is the `DeviceUsed == CPU_NAIVE` instantiation of the forward
  pass (lines 118-177).
* `evaluateCUDA` is the `DeviceUsed == GPU_CUDA` instantiation (lines 178-193);
  the cuDNN primitive and the CUDA kernel it calls are not part of the sources
  and are modelled from the spec.

The element type `DataType` of the C++ template is a type parameter `α` with
its arithmetic passed as type-class instances and `exp`, `log` passed as
functions, so every definition is executable; the theorems instantiate it at
the real numbers.  Where a result depends on `exp` being positive, the theorem
takes `exp` as a parameter, so that it also covers `underflowing`, an
exponential that is exactly 0 below a threshold as `std::exp` is in floating
point.  `unsigned int` values are natural numbers, reduced modulo
`2 ^ 32` where the source computes with them.  A call that would leave defined
behaviour (null handle, index outside a buffer or a shape, failing cuDNN call)
returns `Except.error`.
-/

namespace FreeWill

/-! ## Data model -/

/-- Template parameter `DeviceUsed` of the operator. -/
inductive DeviceType where
  | CPU_NAIVE
  | GPU_CUDA
  deriving DecidableEq, Repr

/-- Template parameter `DataType` as far as `init` inspects it
(`std::is_same<DataType,float>`, `std::is_same<DataType,double>`). -/
inductive ElemKind where
  | float
  | double
  | other
  deriving DecidableEq, Repr

/-- The ways an operator call can leave the defined behaviour of the program. -/
inductive Fault where
  | nullHandle
  | outOfRange
  | cudnnFailure
  deriving DecidableEq, Repr

/-- Wrap-around of `unsigned int` arithmetic. -/
def u32 (n : Nat) : Nat := n % 2 ^ 32

/-- The conversion `(int)x` of an `unsigned int` to a 32-bit signed `int`. -/
def toInt (n : Nat) : Int :=
  if n % 2 ^ 32 < 2 ^ 31 then ((n % 2 ^ 32 : Nat) : Int) else ((n % 2 ^ 32 : Nat) : Int) - 2 ^ 32

/-- Modelled from the spec: the class `Shape`, whose header is not part of the
sources at hand.  "A handle exposes `dimension()` (rank) and indexable per-axis
extents"; the extents are the `unsigned int` values the operator reads. -/
structure Shape where
  dims : List Nat
  deriving DecidableEq, Repr

namespace Shape

/-- Rank of the shape, `shape().dimension()`. -/
def dimension (s : Shape) : Nat := s.dims.length

/-- Extent of axis `k`, `shape()[k]`; indexing past the rank is a fault. -/
def get (s : Shape) (k : Nat) : Except Fault Nat :=
  match s.dims[k]? with
  | some d => .ok d
  | none => .error .outOfRange

/-- Number of elements a tensor of this shape stores. -/
def size (s : Shape) : Nat := s.dims.prod

end Shape

/-- Modelled from the spec: the class `Tensor`, whose header is not part of
the sources at hand: a shape and the flat backing storage that the typed view
`toType<T>()` indexes with `(*t)[k]`. -/
structure Tensor (β : Type) where
  shape : Shape
  data : List β

namespace Tensor

variable {β : Type}

/-- Read of `(*t)[k]`. -/
def read (t : Tensor β) (k : Nat) : Except Fault β :=
  match t.data[k]? with
  | some v => .ok v
  | none => .error .outOfRange

/-- Assignment `(*t)[k] = v`. -/
def write (t : Tensor β) (k : Nat) (v : β) : Except Fault (Tensor β) :=
  if k < t.data.length then .ok { t with data := t.data.set k v } else .error .outOfRange

/-- Entry `k` of the flat storage as a value (`0` past the end of the storage);
the contract speaks of entries within the storage only. -/
def elem [OfNat β 0] (t : Tensor β) (k : Nat) : β := t.data.getD k 0

/-- The tensor `t` has shape `sh` and stores the `n` entries `g 0, ..., g (n - 1)`. -/
def Holds [OfNat β 0] (t : Tensor β) (sh : Shape) (n : Nat) (g : Nat → β) : Prop :=
  t.shape = sh ∧ t.data.length = n ∧ ∀ k, k < n → t.elem k = g k

end Tensor

/-- The cuDNN enumeration `cudnnDataType_t`, as far as the operator uses it. -/
inductive cudnnDataType_t where
  | CUDNN_DATA_FLOAT
  | CUDNN_DATA_DOUBLE
  deriving DecidableEq, Repr

/-- What `cudnnSetTensorNdDescriptor` records in a tensor descriptor. -/
structure TensorNd where
  dataType : cudnnDataType_t
  nbDims : Int
  dimA : List Int
  strideA : List Int
  deriving DecidableEq, Repr

/-- A `cudnnTensorDescriptor_t`: `none` until it has been configured. -/
abbrev cudnnTensorDescriptor_t := Option TensorNd

/-- Modelled from the spec: the macro `RUN_CUDNN` (from a header that is not
part of the sources at hand) around `cudnnSetTensorNdDescriptor`: "Descriptor
configuration failure is a fatal initialization error".  Which configurations
the library accepts is the parameter `accepts`. -/
def cudnnSetTensorNdDescriptor (accepts : TensorNd → Bool) (dataType : cudnnDataType_t)
    (nbDims : Int) (dimA strideA : List Int) : Except Fault cudnnTensorDescriptor_t :=
  if accepts ⟨dataType, nbDims, dimA, strideA⟩ then .ok (some ⟨dataType, nbDims, dimA, strideA⟩)
  else .error .cudnnFailure

/-- Offset, in elements, of the entry with the multi-index `idx` in a buffer
laid out by the descriptor `d`: the sum of the indices times their strides. -/
def TensorNd.offset (d : TensorNd) (idx : List Int) : Int :=
  (List.zipWith (fun i s => i * s) idx d.strideA).sum

/-- Dense (fully packed) strides of the dimensions `dims`: each stride is the
product of the dimensions after it. -/
def denseStrides : List Int → List Int
  | [] => []
  | _ :: ds => ds.prod :: denseStrides ds

/-- The `cudnnDataType_t` that `init` selects for the element type (lines
70-78): `CUDNN_DATA_FLOAT` unless `DataType` is `double`. -/
def dataTypeOf (DataType : ElemKind) : cudnnDataType_t :=
  match DataType with
  | .float => .CUDNN_DATA_FLOAT
  | .double => .CUDNN_DATA_DOUBLE
  | .other => .CUDNN_DATA_FLOAT

/-- State of a `SoftmaxLogLoss<DeviceUsed, DataType>` object: the tensors bound
to the names "Input", "Label" (inputs) and "Cost", "Output" (outputs), each
possibly absent, and the two cuDNN descriptors.  The four names are bound to
four distinct tensors. -/
structure SoftmaxLogLoss (α : Type) where
  Input : Option (Tensor α)
  Label : Option (Tensor Nat)
  Cost : Option (Tensor α)
  Output : Option (Tensor α)
  m_inputGPUTensorDescriptor : cudnnTensorDescriptor_t
  m_outputGPUTensorDescriptor : cudnnTensorDescriptor_t

namespace SoftmaxLogLoss

variable {α : Type}

/-! ## `init` -/

/-- Modelled from the spec: the macro `FAIL_IF`, whose header is not part of
the sources at hand: "any violation fails initialization immediately
(fail-fast, no partial setup)", that is `if (c) return false;`.  On `c` the
method returns `false` with the state `st` as it is; otherwise it goes on with
`rest`. -/
def FAIL_IF {σ : Type} (c : Prop) [Decidable c] (st : σ)
    (rest : Except Fault (Bool × σ)) : Except Fault (Bool × σ) :=
  if c then .ok (false, st) else rest

/-- The method `init` (lines 49-116): the returned `bool` and the state after
the call.  The match is the first check (line 53, a null handle among the
four); an operand `shape()[k]` of a short-circuit `||` is read when the
operands before it are false.  `CHECK_GPU` (line 51, a macro of the same
missing header as `FAIL_IF`) leaves the tensors and the descriptors alone. -/
def init (DeviceUsed : DeviceType) (DataType : ElemKind) (accepts : TensorNd → Bool)
    (op : SoftmaxLogLoss α) : Except Fault (Bool × SoftmaxLogLoss α) :=
  match op.Input, op.Label, op.Cost, op.Output with
  | some input, some label, some cost, some output =>
    FAIL_IF (input.shape ≠ output.shape) op <|
    FAIL_IF (input.shape.dimension ≠ 2) op <|
    FAIL_IF (label.shape.dimension ≠ 2 ∨ cost.shape.dimension ≠ 2) op <|
    label.shape.get 0 >>= fun l0 =>
    FAIL_IF (1 ≠ l0) op <|
    cost.shape.get 0 >>= fun c0 =>
    FAIL_IF (1 ≠ c0) op <|
    input.shape.get 1 >>= fun batchSize =>
    label.shape.get 1 >>= fun l1 =>
    FAIL_IF (batchSize ≠ l1) op <|
    cost.shape.get 1 >>= fun c1 =>
    FAIL_IF (batchSize ≠ c1) op <|
    match DeviceUsed with
    | .CPU_NAIVE => .ok (true, op)
    | .GPU_CUDA =>
      let dataType : cudnnDataType_t := dataTypeOf DataType
      input.shape.get 0 >>= fun vectorSize =>
      let dimA : List Int := [toInt batchSize, toInt vectorSize, 1, 1]
      let strideA : List Int := [toInt vectorSize, 1, 1, 1]
      cudnnSetTensorNdDescriptor accepts dataType 4 dimA strideA >>= fun dIn =>
      cudnnSetTensorNdDescriptor accepts dataType 4 dimA strideA >>= fun dOut =>
      .ok (true, { op with m_inputGPUTensorDescriptor := dIn, m_outputGPUTensorDescriptor := dOut })
  | _, _, _, _ => .ok (false, op)

/-! ## `evaluate`, reference backend -/

/-- The loop `for (unsigned int i = i0; i < hi; ++i) body`, where `s` holds
the variables the body assigns.  The counter cannot wrap: `i < hi` and `hi`
is an `unsigned int`. -/
def forLoop {σ : Type} (hi : Nat) (body : Nat → σ → Except Fault σ) (i : Nat) (s : σ) :
    Except Fault σ :=
  if i < hi then body i s >>= forLoop hi body (i + 1) else .ok s
termination_by hi - i

section Arithmetic

variable [OfNat α 0] [Add α] [Sub α] [Div α] [Neg α] [LT α]
  [DecidableRel (fun a b : α => a < b)]

/-- Body of the first scan (lines 140-143): the running `maximum`. -/
def maxStep (_input : Tensor α) (b vectorSize : Nat) (i : Nat) (maximum : α) :
    Except Fault α :=
  _input.read (u32 (b * vectorSize + i)) >>= fun x =>
  .ok (if x > maximum then x else maximum)

/-- Body of the second scan (lines 151-162) on the variables
`(expSum, *_cost, *_output)`. -/
def expStep (exp : α → α) (_input : Tensor α) (maximum : α) (label : Nat)
    (b vectorSize : Nat) (i : Nat) (s : α × Tensor α × Tensor α) :
    Except Fault (α × Tensor α × Tensor α) :=
  _input.read (u32 (b * vectorSize + i)) >>= fun x =>
  let v := x - maximum
  let v := exp v
  s.2.2.write (u32 (b * vectorSize + i)) v >>= fun _output =>
  (if i = label then s.2.1.write b v else .ok s.2.1) >>= fun _cost =>
  .ok (s.1 + v, _cost, _output)

/-- Body of the third scan (line 168): division of a stored exponential by
`expSum`. -/
def normStep (expSum : α) (b vectorSize : Nat) (i : Nat) (_output : Tensor α) :
    Except Fault (Tensor α) :=
  _output.read (u32 (b * vectorSize + i)) >>= fun y =>
  _output.write (u32 (b * vectorSize + i)) (y / expSum)

/-- Body of the loop over the batch (lines 136-173) on the variables
`(*_cost, *_output)`. -/
def batchStep (exp log : α → α) (_input : Tensor α) (_label : Tensor Nat)
    (vectorSize : Nat) (b : Nat) (s : Tensor α × Tensor α) :
    Except Fault (Tensor α × Tensor α) :=
  _input.read (u32 (b * vectorSize)) >>= fun maximum0 =>
  forLoop vectorSize (maxStep _input b vectorSize) 1 maximum0 >>= fun maximum =>
  _label.read b >>= fun label =>
  forLoop vectorSize (expStep exp _input maximum label b vectorSize) 0 (0, s.1, s.2) >>= fun r =>
  forLoop vectorSize (normStep r.1 b vectorSize) 0 r.2.2 >>= fun _output =>
  r.2.1.read b >>= fun c =>
  r.2.1.write b (c / r.1) >>= fun _cost =>
  _cost.read b >>= fun c =>
  _cost.write b (-(log c)) >>= fun _cost =>
  .ok (_cost, _output)

/-- The method `evaluate` for `DeviceUsed == CPU_NAIVE` (lines 118-177): the
state after the call. -/
def evaluate (exp log : α → α) (op : SoftmaxLogLoss α) : Except Fault (SoftmaxLogLoss α) :=
  match op.Input, op.Label, op.Cost, op.Output with
  | some _input, some _label, some _cost, some _output =>
    _input.shape.get 1 >>= fun batchSize =>
    _input.shape.get 0 >>= fun vectorSize =>
    forLoop batchSize (batchStep exp log _input _label vectorSize) 0 (_cost, _output) >>= fun r =>
    .ok { op with Cost := some r.1, Output := some r.2 }
  | _, _, _, _ => .error .nullHandle

/-- The loop over the batch of the reference `evaluate` with its iterations
taken in the order `order` instead of `0, 1, ..., batchSize - 1`: the spec lets
an implementer run the iterations "across threads at the implementer's
discretion". -/
def evaluateInOrder (exp log : α → α) (order : List Nat) (op : SoftmaxLogLoss α) :
    Except Fault (SoftmaxLogLoss α) :=
  match op.Input, op.Label, op.Cost, op.Output with
  | some _input, some _label, some _cost, some _output =>
    _input.shape.get 1 >>= fun _ =>
    _input.shape.get 0 >>= fun vectorSize =>
    order.foldlM (fun s b => batchStep exp log _input _label vectorSize b s)
      (_cost, _output) >>= fun r =>
    .ok { op with Cost := some r.1, Output := some r.2 }
  | _, _, _, _ => .error .nullHandle

/-! ## `evaluate`, accelerated backend -/

/-- Modelled from the spec: the softmax of one score vector ("exponential
normalization converting a score vector into a probability distribution") in
the numerically accurate mode `CUDNN_SOFTMAX_ACCURATE` of cuDNN, an external
library: the maximum of the vector is subtracted before the exponentials are
taken. -/
def softmaxAccurate (exp : α → α) (v : List α) : List α :=
  let m := v.foldl (fun m a => if a > m then a else m) (v.headD 0)
  let e := v.map (fun a => exp (a - m))
  let s := e.foldr (fun a t => a + t) 0
  e.map (fun a => a / s)

/-- Modelled from the spec: the external primitive `cudnnSoftmaxForward` of
cuDNN, as `evaluate` calls it inside `RUN_CUDNN` (mode
`CUDNN_SOFTMAX_MODE_CHANNEL`, `alpha = 1`, `beta = 0`): it "writes the full
probability distribution into Output", with "per-channel (not
per-batch-flattened) normalization semantics".  For descriptors of dimensions
`(N, C, 1, 1)` with dense strides, the `C` entries of `x` that belong to each
`n < N` are replaced in `y` by their softmax.  A descriptor that is not
configured, or not of this form, is a failing call; a buffer shorter than
`N * C` is an access out of range. -/
def cudnnSoftmaxForward (exp : α → α) (xDesc : cudnnTensorDescriptor_t) (x : Tensor α)
    (yDesc : cudnnTensorDescriptor_t) (y : Tensor α) : Except Fault (Tensor α) :=
  match xDesc, yDesc with
  | some dx, some dy =>
    match dx.dimA with
    | [n, c, h, w] =>
      if h = 1 ∧ w = 1 ∧ 0 ≤ n ∧ 0 ≤ c ∧ dy.dimA = dx.dimA ∧
          dx.strideA = denseStrides dx.dimA ∧ dy.strideA = denseStrides dy.dimA then
        if n.toNat * c.toNat ≤ x.data.length ∧ n.toNat * c.toNat ≤ y.data.length then
          .ok { y with data :=
            (List.range (n.toNat * c.toNat)).map (fun k =>
              (softmaxAccurate exp ((List.range c.toNat).map
                (fun j => x.elem (k / c.toNat * c.toNat + j)))).getD (k % c.toNat) 0)
            ++ y.data.drop (n.toNat * c.toNat) }
        else .error .outOfRange
      else .error .cudnnFailure
    | _ => .error .cudnnFailure
  | _, _ => .error .cudnnFailure

/-- Modelled from the spec: the kernel `softmaxLogLossCUDAKernel`, declared in
`SoftmaxLogLoss_CUDA.h`, which is not part of the sources at hand: "for each
batch element, look up the probability at the label index and write
`-log(probability)`".  The batch elements are independent of each other and
are taken in turn. -/
def softmaxLogLossCUDAKernel (log : α → α) (output : Tensor α) (label : Tensor Nat)
    (cost : Tensor α) (vectorSize batchSize : Nat) : Except Fault (Tensor α) :=
  forLoop batchSize (fun b cost =>
    label.read b >>= fun l =>
    output.read (u32 (b * vectorSize + l)) >>= fun p =>
    cost.write b (-(log p))) 0 cost

/-- The method `evaluate` for `DeviceUsed == GPU_CUDA` (lines 118-128 and
178-193): the state after the call. -/
def evaluateCUDA (exp log : α → α) (op : SoftmaxLogLoss α) : Except Fault (SoftmaxLogLoss α) :=
  match op.Input, op.Label, op.Cost, op.Output with
  | some _input, some _label, some _cost, some _output =>
    _input.shape.get 1 >>= fun batchSize =>
    _input.shape.get 0 >>= fun vectorSize =>
    cudnnSoftmaxForward exp op.m_inputGPUTensorDescriptor _input
      op.m_outputGPUTensorDescriptor _output >>= fun _output =>
    softmaxLogLossCUDAKernel log _output _label _cost vectorSize batchSize >>= fun _cost =>
    .ok { op with Cost := some _cost, Output := some _output }
  | _, _, _, _ => .error .nullHandle

/-! ## Vocabulary of the contract -/

/-- `Input[k]`: entry `k` of the tensor bound to "Input". -/
def inputAt (op : SoftmaxLogLoss α) (k : Nat) : α :=
  match op.Input with
  | some t => t.elem k
  | none => 0

/-- `Label[b]`: entry `b` of the tensor bound to "Label". -/
def labelAt (op : SoftmaxLogLoss α) (b : Nat) : Nat :=
  match op.Label with
  | some t => t.elem b
  | none => 0

/-- `Cost[b]`: entry `b` of the tensor bound to "Cost". -/
def costAt (op : SoftmaxLogLoss α) (b : Nat) : α :=
  match op.Cost with
  | some t => t.elem b
  | none => 0

/-- `Output[k]`: entry `k` of the tensor bound to "Output". -/
def outputAt (op : SoftmaxLogLoss α) (k : Nat) : α :=
  match op.Output with
  | some t => t.elem k
  | none => 0

/-- The six conditions of the validator's contract (spec section 4.1), in the
spec's words: all four tensors present, `Input.shape == Output.shape`, `Input`
of rank 2, `Label` and `Cost` of rank 2, `Label.shape[0] == 1` and
`Cost.shape[0] == 1`, and `Input.shape[1] == Label.shape[1] == Cost.shape[1]`. -/
def ShapeConditions (op : SoftmaxLogLoss α) : Prop :=
  match op.Input, op.Label, op.Cost, op.Output with
  | some input, some label, some cost, some output =>
    input.shape = output.shape ∧
    input.shape.dimension = 2 ∧
    (label.shape.dimension = 2 ∧ cost.shape.dimension = 2) ∧
    (label.shape.dims[0]? = some 1 ∧ cost.shape.dims[0]? = some 1) ∧
    (input.shape.dims[1]? = label.shape.dims[1]? ∧ input.shape.dims[1]? = cost.shape.dims[1]?)
  | _, _, _, _ => False

instance (op : SoftmaxLogLoss α) : Decidable (ShapeConditions op) := by
  unfold ShapeConditions
  split <;> infer_instance

/-- A valid input of `evaluate` with `vectorSize = V` and `batchSize = B`: the
four tensors are present with the shapes `[V, B]`, `[1, B]`, `[1, B]`, `[V, B]`
that a successful `init` has checked, each stores as many elements as its
shape's extents multiply to, and that number fits the `unsigned int` in which
the flat index `b * vectorSize + i` is computed. -/
def Ready (op : SoftmaxLogLoss α) (V B : Nat) : Prop :=
  ∃ input label cost output,
    op.Input = some input ∧ op.Label = some label ∧
    op.Cost = some cost ∧ op.Output = some output ∧
    input.shape = ⟨[V, B]⟩ ∧ label.shape = ⟨[1, B]⟩ ∧
    cost.shape = ⟨[1, B]⟩ ∧ output.shape = ⟨[V, B]⟩ ∧
    input.data.length = input.shape.size ∧ label.data.length = label.shape.size ∧
    cost.data.length = cost.shape.size ∧ output.data.length = output.shape.size ∧
    V * B < 2 ^ 32

/-- The state that binds "Input", "Label", "Cost" and "Output" to tensors of
the shapes `[V, B]`, `[1, B]`, `[1, B]`, `[V, B]` with the given flat contents;
the descriptors are not configured. -/
def ofData (V B : Nat) (input : List α) (label : List Nat) (cost output : List α) :
    SoftmaxLogLoss α :=
  { Input := some ⟨⟨[V, B]⟩, input⟩
    Label := some ⟨⟨[1, B]⟩, label⟩
    Cost := some ⟨⟨[1, B]⟩, cost⟩
    Output := some ⟨⟨[V, B]⟩, output⟩
    m_inputGPUTensorDescriptor := none
    m_outputGPUTensorDescriptor := none }

/-- A state whose "Input" (and "Output") has rank 1. -/
def rankOneInput : SoftmaxLogLoss ℝ :=
  { Input := some ⟨⟨[3]⟩, [1, 2, 3]⟩
    Label := some ⟨⟨[1, 1]⟩, [2]⟩
    Cost := some ⟨⟨[1, 1]⟩, [0]⟩
    Output := some ⟨⟨[3]⟩, [0, 0, 0]⟩
    m_inputGPUTensorDescriptor := none
    m_outputGPUTensorDescriptor := none }

/-- A state whose "Label" has batch size 1 where "Input" has batch size 2, with
both descriptors configured by an earlier `init`. -/
def batchMismatch : SoftmaxLogLoss ℝ :=
  { Input := some ⟨⟨[3, 2]⟩, [1, 2, 3, 4, 5, 6]⟩
    Label := some ⟨⟨[1, 1]⟩, [2]⟩
    Cost := some ⟨⟨[1, 2]⟩, [0, 0]⟩
    Output := some ⟨⟨[3, 2]⟩, [0, 0, 0, 0, 0, 0]⟩
    m_inputGPUTensorDescriptor := some ⟨.CUDNN_DATA_FLOAT, 4, [1, 3, 1, 1], [3, 1, 1, 1]⟩
    m_outputGPUTensorDescriptor := some ⟨.CUDNN_DATA_FLOAT, 4, [1, 3, 1, 1], [3, 1, 1, 1]⟩ }

/-- The spec's scenario `V = 3`, `B = 1`, `Input = [1, 2, 3]`, `Label = [2]`. -/
def scenario : SoftmaxLogLoss ℝ := ofData 3 1 [1, 2, 3] [2] [0] [0, 0, 0]

/-- A batch of two examples with three classes each. -/
def batchOfTwo : SoftmaxLogLoss ℝ :=
  ofData 3 2 [1, 2, 3, 4, 5, 6] [2, 0] [0, 0] [0, 0, 0, 0, 0, 0]

/-- The state `batchOfTwo` with 1000 added to every logit of row 0 and other
values left in "Cost" and "Output". -/
def batchOfTwoShifted : SoftmaxLogLoss ℝ :=
  ofData 3 2 [1001, 1002, 1003, 4, 5, 6] [2, 0] [7, 8] [9, 9, 9, 9, 9, 9]

/-- The state `batchOfTwo` with other values left in "Cost" and "Output". -/
def batchOfTwoStale : SoftmaxLogLoss ℝ :=
  ofData 3 2 [1, 2, 3, 4, 5, 6] [2, 0] [7, 8] [9, 9, 9, 9, 9, 9]

/-- A batch that agrees with `batchOfTwo` on row 0 of "Input" and on
`Label[0]` only. -/
def batchOfTwoOther : SoftmaxLogLoss ℝ :=
  ofData 3 2 [1, 2, 3, 0, 0, 7] [2, 1] [7, 8] [9, 9, 9, 9, 9, 9]

/-- A state with `V = 1`, `B = 1` whose label 1 is out of range and whose
"Cost" holds 1. -/
def labelOutOfRange : SoftmaxLogLoss ℝ := ofData 1 1 [0] [1] [1] [0]

/-- The spec's scenario `V = 2`, `B = 2`, all-zero `Input`, `Label = [0, 1]`. -/
def uniformScenario : SoftmaxLogLoss ℝ := ofData 2 2 [0, 0, 0, 0] [0, 1] [0, 0] [0, 0, 0, 0]

/-- A batch of two examples with `V = 3` whose logits `1000, 0, -1000` lie more
than 746 apart; the label of example 0 is its greatest class, the label of
example 1 is not. -/
def underflowScenario : SoftmaxLogLoss ℝ :=
  ofData 3 2 [1000, 0, -1000, 1000, 0, -1000] [0, 1] [0, 0] [0, 0, 0, 0, 0, 0]

/-- The state `batchOfTwo` after a successful `init` of the accelerated
backend for `float`. -/
def batchOfTwoConfigured : SoftmaxLogLoss ℝ :=
  { batchOfTwo with
    m_inputGPUTensorDescriptor := some ⟨.CUDNN_DATA_FLOAT, 4, [2, 3, 1, 1], [3, 1, 1, 1]⟩
    m_outputGPUTensorDescriptor := some ⟨.CUDNN_DATA_FLOAT, 4, [2, 3, 1, 1], [3, 1, 1, 1]⟩ }

/-- The value of `maximum` after the first scan has visited `f 0, ..., f n`. -/
def scanMax (f : Nat → α) : Nat → α
  | 0 => f 0
  | n + 1 => if f (n + 1) > scanMax f n then f (n + 1) else scanMax f n

/-- The value of `expSum` after the second scan has added `f 0, ..., f (n - 1)`. -/
def scanSum (f : Nat → α) : Nat → α
  | 0 => 0
  | n + 1 => scanSum f n + f n

/-- The value of `maximum` for batch element `b`. -/
def rowMax (op : SoftmaxLogLoss α) (V b : Nat) : α :=
  scanMax (fun j => op.inputAt (b * V + j)) (V - 1)

/-- The exponential stored for class `i` of batch element `b` by the second
scan. -/
def rowExp (exp : α → α) (op : SoftmaxLogLoss α) (V b i : Nat) : α :=
  exp (op.inputAt (b * V + i) - rowMax op V b)

/-- The value of `expSum` for batch element `b`. -/
def rowSum (exp : α → α) (op : SoftmaxLogLoss α) (V b : Nat) : α :=
  scanSum (rowExp exp op V b) V

/-- The `std::exp` of a floating-point `DataType`, as far as underflow goes:
the result is exactly `0` below `threshold` (for IEEE `double`, and all the
more for `float`, `std::exp x` is `0` for every `x < -746`) and `exp x`
elsewhere. -/
def underflowing (exp : α → α) (threshold x : α) : α :=
  if x < threshold then 0 else exp x

end Arithmetic

/-! ## Buffers and loops -/

section Buffers

variable {β : Type} [OfNat β 0]

/-- Reading inside the storage yields the stored entry. -/
theorem holds_read {t : Tensor β} {sh : Shape} {n : Nat} {g : Nat → β}
    (h : t.Holds sh n g) {k : Nat} (hk : k < n) : t.read k = .ok (g k) := by
  obtain ⟨-, hlen, hg⟩ := h
  have e := hg k hk
  have hk' : k < t.data.length := hlen ▸ hk
  simp only [Tensor.elem, List.getD_eq_getElem?_getD, List.getElem?_eq_getElem hk',
    Option.getD_some] at e
  simp [Tensor.read, List.getElem?_eq_getElem hk', e]

/-- Writing inside the storage succeeds and changes that one entry. -/
theorem holds_write {t : Tensor β} {sh : Shape} {n : Nat} {g : Nat → β}
    (h : t.Holds sh n g) {k : Nat} (hk : k < n) (v : β) :
    ∃ t', t.write k v = .ok t' ∧ t'.Holds sh n (fun j => if j = k then v else g j) := by
  obtain ⟨hsh, hlen, hg⟩ := h
  have hk' : k < t.data.length := hlen ▸ hk
  refine ⟨{ t with data := t.data.set k v }, by simp [Tensor.write, hk'], hsh, by simpa using hlen, ?_⟩
  intro j hj
  have hj' : j < t.data.length := hlen ▸ hj
  by_cases e : j = k
  · subst e
    simp [Tensor.elem, List.getD_eq_getElem?_getD, List.getElem?_set, hk']
  · have e' : ¬ k = j := fun x => e x.symm
    have := hg j hj
    simp only [Tensor.elem, List.getD_eq_getElem?_getD] at this
    simp [Tensor.elem, List.getD_eq_getElem?_getD, List.getElem?_set, e, e', this]

/-- The description of the entries may be replaced by one that agrees with it
on the storage. -/
theorem holds_congr {t : Tensor β} {sh : Shape} {n : Nat} {g g' : Nat → β}
    (h : t.Holds sh n g) (e : ∀ k, k < n → g k = g' k) : t.Holds sh n g' :=
  ⟨h.1, h.2.1, fun k hk => (h.2.2 k hk).trans (e k hk)⟩

/-- Two tensors of the same shape with the same entries are equal. -/
theorem tensor_ext {t t' : Tensor β} (hs : t.shape = t'.shape)
    (hl : t.data.length = t'.data.length)
    (he : ∀ k, k < t.data.length → t.elem k = t'.elem k) : t = t' := by
  obtain ⟨s, d⟩ := t
  obtain ⟨s', d'⟩ := t'
  simp only at hs hl he
  subst hs
  congr 1
  refine List.ext_getElem hl (fun n h1 h2 => ?_)
  have := he n h1
  simpa [Tensor.elem, List.getD_eq_getElem, h1, h2] using this

end Buffers

section Scans

variable [OfNat α 0] [Add α] [Sub α] [Div α] [Neg α] [LT α]
  [DecidableRel (fun a b : α => a < b)]

omit [OfNat α 0] [Add α] [Sub α] [Div α] [Neg α] [LT α]
  [DecidableRel (fun a b : α => a < b)] in
/-- Invariant rule for `forLoop`: an invariant that holds on entry and that
every iteration with `i ≤ j < hi` re-establishes (without fault) holds on exit,
and the loop ends without fault. -/
theorem forLoop_inv {σ : Type} (hi : Nat) (body : Nat → σ → Except Fault σ)
    (P : Nat → σ → Prop) (i : Nat) (s : σ) (hle : i ≤ hi) (h0 : P i s)
    (step : ∀ j t, i ≤ j → j < hi → P j t → ∃ t', body j t = .ok t' ∧ P (j + 1) t') :
    ∃ s', forLoop hi body i s = .ok s' ∧ P hi s' := by
  obtain ⟨n, hn⟩ : ∃ n, i + n = hi := ⟨hi - i, by omega⟩
  induction n generalizing i s with
  | zero =>
    have : ¬ i < hi := by omega
    rw [forLoop, if_neg this]
    have e : i = hi := by omega
    exact ⟨s, rfl, e ▸ h0⟩
  | succ n ih =>
    have hlt : i < hi := by omega
    obtain ⟨t', ht', hP⟩ := step i s (le_refl i) hlt h0
    rw [forLoop, if_pos hlt, ht']
    exact ih (i + 1) t' (by omega) hP
      (fun j t hj hj' hPj => step j t (by omega) hj' hPj) (by omega)

/-! ## The scans of `evaluate` -/

omit [OfNat α 0] [Add α] [Sub α] [Div α] [Neg α] [LT α]
  [DecidableRel (fun a b : α => a < b)] in
/-- For `b < B` and `i < V` the flat index `b * V + i` lies inside a buffer of
`V * B` elements and, when `V * B < 2 ^ 32`, is computed without wrap-around. -/
theorem flat_index {V B b i : Nat} (hb : b < B) (hi : i < V) (hN : V * B < 2 ^ 32) :
    u32 (b * V + i) = b * V + i ∧ b * V + i < V * B := by
  have h1 : b * V + V ≤ B * V := by
    have : (b + 1) * V ≤ B * V := Nat.mul_le_mul_right V hb
    rw [Nat.add_mul, Nat.one_mul] at this
    exact this
  have h2 : b * V + i < V * B := by
    rw [Nat.mul_comm V B]
    omega
  exact ⟨Nat.mod_eq_of_lt (by omega), h2⟩

omit [Add α] [Sub α] [Div α] [Neg α] in
/-- The first scan leaves in `maximum` the running maximum of the row. -/
theorem maxScan_eq {input : Tensor α} {sh : Shape} {V B b : Nat} {x : Nat → α}
    (hin : input.Holds sh (V * B) x) (hb : b < B) (hV : 1 ≤ V) (hN : V * B < 2 ^ 32) :
    forLoop V (maxStep input b V) 1 (x (b * V)) =
      .ok (scanMax (fun j => x (b * V + j)) (V - 1)) := by
  obtain ⟨m, hm, hP⟩ := forLoop_inv V (maxStep input b V)
    (fun i m => 1 ≤ i ∧ m = scanMax (fun j => x (b * V + j)) (i - 1)) 1 (x (b * V)) hV
    ⟨le_refl 1, by simp [scanMax]⟩
    (by
      intro j m hj hjV ⟨_, hm⟩
      obtain ⟨e1, e2⟩ := flat_index hb hjV hN
      refine ⟨_, by simp only [maxStep, e1, holds_read hin e2, bind, Except.bind]; rfl, by omega, ?_⟩
      obtain ⟨j', rfl⟩ : ∃ j', j = j' + 1 := ⟨j - 1, by omega⟩
      simp only [Nat.add_sub_cancel] at hm ⊢
      simp only [scanMax, hm])
  rw [hm, hP.2]

omit [Div α] [Neg α] [LT α] [DecidableRel (fun a b : α => a < b)] in
/-- The second scan stores the exponentials `e 0, ..., e (V - 1)` of the row
into `Output`, leaves their running sum in `expSum`, and copies `e label` into
`Cost[b]` when `label < V`. -/
theorem expScan_eq (exp : α → α) {input cost output : Tensor α} {sh shc sho : Shape}
    {V B b : Nat} {x c o : Nat → α} (maximum : α) (label : Nat)
    (hin : input.Holds sh (V * B) x) (hc : cost.Holds shc B c)
    (ho : output.Holds sho (V * B) o) (hb : b < B) (hN : V * B < 2 ^ 32) :
    ∃ cost' output',
      forLoop V (expStep exp input maximum label b V) 0 (0, cost, output) =
        .ok (scanSum (fun j => exp (x (b * V + j) - maximum)) V, cost', output') ∧
      cost'.Holds shc B
        (fun k => if k = b ∧ label < V then exp (x (b * V + label) - maximum) else c k) ∧
      output'.Holds sho (V * B)
        (fun k => if b * V ≤ k ∧ k < b * V + V then exp (x (b * V + (k - b * V)) - maximum)
          else o k) := by
  obtain ⟨⟨S, cost', output'⟩, hrun, hS, hc', ho'⟩ :=
    forLoop_inv V (expStep exp input maximum label b V)
    (fun i s => s.1 = scanSum (fun j => exp (x (b * V + j) - maximum)) i ∧
      s.2.1.Holds shc B
        (fun k => if k = b ∧ label < i then exp (x (b * V + label) - maximum) else c k) ∧
      s.2.2.Holds sho (V * B)
        (fun k => if b * V ≤ k ∧ k < b * V + i then exp (x (b * V + (k - b * V)) - maximum)
          else o k))
    0 (0, cost, output) (Nat.zero_le V)
    ⟨rfl, holds_congr hc (by intro k _; simp), holds_congr ho (by
      intro k _
      exact (if_neg (by omega)).symm)⟩
    (by
      rintro j ⟨S, ct, ot⟩ - hjV ⟨hS, hct, hot⟩
      simp only at hS hct hot
      obtain ⟨e1, e2⟩ := flat_index hb hjV hN
      obtain ⟨ot', hw, hot'⟩ := holds_write hot e2 (exp (x (b * V + j) - maximum))
      by_cases hl : j = label
      · subst hl
        obtain ⟨ct', hwc, hct'⟩ := holds_write hct hb (exp (x (b * V + j) - maximum))
        refine ⟨(S + exp (x (b * V + j) - maximum), ct', ot'), ?_, ?_, ?_, ?_⟩
        · simp only [expStep, e1, holds_read hin e2, hw, hwc, if_true, bind, Except.bind]
        · simp only [scanSum, hS]
        · refine holds_congr hct' ?_
          intro k _
          by_cases hk : k = b
          · simp [hk]
          · simp [hk]
        · refine holds_congr hot' ?_
          intro k _
          by_cases hk : k = b * V + j
          · subst hk
            simp
          · have : (b * V ≤ k ∧ k < b * V + (j + 1)) ↔ (b * V ≤ k ∧ k < b * V + j) := by omega
            simp [hk, this]
      · refine ⟨(S + exp (x (b * V + j) - maximum), ct, ot'), ?_, ?_, ?_, ?_⟩
        · simp only [expStep, e1, holds_read hin e2, hw, hl, if_false, bind, Except.bind]
        · simp only [scanSum, hS]
        · refine holds_congr hct ?_
          intro k _
          have : label < j + 1 ↔ label < j := by omega
          simp [this]
        · refine holds_congr hot' ?_
          intro k _
          by_cases hk : k = b * V + j
          · subst hk
            simp
          · have : (b * V ≤ k ∧ k < b * V + (j + 1)) ↔ (b * V ≤ k ∧ k < b * V + j) := by omega
            simp [hk, this])
  simp only at hS hc' ho'
  exact ⟨cost', output', by rw [hrun, hS], hc', ho'⟩

omit [Add α] [Sub α] [Neg α] [LT α] [DecidableRel (fun a b : α => a < b)] in
/-- The third scan divides the entries of the row by `expSum` and leaves every
other entry of `Output` as it was. -/
theorem normScan_eq (expSum : α) {output : Tensor α} {sho : Shape} {V B b : Nat}
    {o : Nat → α} (ho : output.Holds sho (V * B) o) (hb : b < B) (hN : V * B < 2 ^ 32) :
    ∃ output', forLoop V (normStep expSum b V) 0 output = .ok output' ∧
      output'.Holds sho (V * B)
        (fun k => if b * V ≤ k ∧ k < b * V + V then o k / expSum else o k) := by
  refine forLoop_inv V (normStep expSum b V)
    (fun i t => t.Holds sho (V * B)
      (fun k => if b * V ≤ k ∧ k < b * V + i then o k / expSum else o k))
    0 output (Nat.zero_le V)
    (holds_congr ho (by
      intro k _
      exact (if_neg (by omega)).symm)) ?_
  intro j t _ hjV ht
  obtain ⟨e1, e2⟩ := flat_index hb hjV hN
  have hr := holds_read ht e2
  have hnot : ¬ (b * V ≤ b * V + j ∧ b * V + j < b * V + j) := by omega
  simp only [if_neg hnot] at hr
  obtain ⟨t', hw, ht'⟩ := holds_write ht e2 (o (b * V + j) / expSum)
  refine ⟨t', by simp only [normStep, e1, hr, hw, bind, Except.bind], holds_congr ht' ?_⟩
  intro k _
  by_cases hk : k = b * V + j
  · subst hk
    simp
  · have : (b * V ≤ k ∧ k < b * V + (j + 1)) ↔ (b * V ≤ k ∧ k < b * V + j) := by omega
    simp [hk, this]

/-- One iteration of the loop over the batch: row `b` of `Output` receives the
normalised exponentials, `Cost[b]` receives `-log (c / expSum)` where `c` is the
captured exponential if `label < V` and the old `Cost[b]` otherwise; every
other entry of `Output` and `Cost` is left as it was. -/
theorem batchStep_eq (exp log : α → α) {input cost output : Tensor α} {label : Tensor Nat}
    {sh shl shc sho : Shape} {V B b : Nat} {x c o : Nat → α} {l : Nat → Nat}
    (hin : input.Holds sh (V * B) x) (hl : label.Holds shl B l) (hc : cost.Holds shc B c)
    (ho : output.Holds sho (V * B) o) (hb : b < B) (hV : 1 ≤ V) (hN : V * B < 2 ^ 32) :
    ∃ cost' output',
      batchStep exp log input label V b (cost, output) = .ok (cost', output') ∧
      cost'.Holds shc B (fun k => if k = b then
          -(log ((if l b < V then
                exp (x (b * V + l b) - scanMax (fun j => x (b * V + j)) (V - 1))
              else c b) /
            scanSum (fun j => exp (x (b * V + j) - scanMax (fun j => x (b * V + j)) (V - 1))) V))
        else c k) ∧
      output'.Holds sho (V * B) (fun k => if b * V ≤ k ∧ k < b * V + V then
          exp (x (b * V + (k - b * V)) - scanMax (fun j => x (b * V + j)) (V - 1)) /
            scanSum (fun j => exp (x (b * V + j) - scanMax (fun j => x (b * V + j)) (V - 1))) V
        else o k) := by
  obtain ⟨e1, e2⟩ := flat_index hb hV hN
  simp only [Nat.add_zero] at e1 e2
  obtain ⟨c1, o1, hrun1, hc1, ho1⟩ := expScan_eq exp
    (scanMax (fun j => x (b * V + j)) (V - 1)) (l b) hin hc ho hb hN
  obtain ⟨o2, hrun2, ho2⟩ := normScan_eq
    (scanSum (fun j => exp (x (b * V + j) - scanMax (fun j => x (b * V + j)) (V - 1))) V)
    ho1 hb hN
  have hr1 := holds_read hc1 hb
  simp only [eq_self_iff_true, true_and] at hr1
  obtain ⟨c2, hw2, hc2⟩ := holds_write hc1 hb
    ((if l b < V then
        exp (x (b * V + l b) - scanMax (fun j => x (b * V + j)) (V - 1)) else c b) /
      scanSum (fun j => exp (x (b * V + j) - scanMax (fun j => x (b * V + j)) (V - 1))) V)
  have hr2 := holds_read hc2 hb
  simp only [eq_self_iff_true, if_true] at hr2
  obtain ⟨c3, hw3, hc3⟩ := holds_write hc2 hb
    (-(log ((if l b < V then
        exp (x (b * V + l b) - scanMax (fun j => x (b * V + j)) (V - 1)) else c b) /
      scanSum (fun j => exp (x (b * V + j) - scanMax (fun j => x (b * V + j)) (V - 1))) V)))
  refine ⟨c3, o2, ?_, holds_congr hc3 ?_, holds_congr ho2 ?_⟩
  · simp only [batchStep, e1, holds_read hin e2, maxScan_eq hin hb hV hN, holds_read hl hb,
      hrun1, hrun2, hr1, hw2, hr2, hw3, bind, Except.bind]
  · intro k _
    by_cases hk : k = b
    · simp [hk]
    · simp [hk]
  · intro k _
    by_cases hk : b * V ≤ k ∧ k < b * V + V
    · simp [hk]
    · simp [hk]

omit [OfNat α 0] [Add α] [Sub α] [Div α] [Neg α] [LT α]
  [DecidableRel (fun a b : α => a < b)] in
/-- The batch element that owns the flat index `k`. -/
theorem row_of_index {V b k : Nat} (h1 : b * V ≤ k) (h2 : k < b * V + V) : k / V = b :=
  Nat.div_eq_of_lt_le h1 (by rw [Nat.add_mul, Nat.one_mul]; exact h2)

/-- What the reference `evaluate` computes on a valid input with `V ≥ 1`: the
call ends without fault in a state that is again a valid input, `Input`,
`Label` and the descriptors are untouched, `Output[b * V + i]` is the stored
exponential divided by `expSum`, and `Cost[b]` is `-log (c / expSum)` where `c`
is the captured exponential if `Label[b] < V` and the old `Cost[b]` otherwise. -/
theorem evaluate_eq (exp log : α → α) (op : SoftmaxLogLoss α) (V B : Nat)
    (h : Ready op V B) (hV : 1 ≤ V) :
    ∃ op', evaluate exp log op = .ok op' ∧ Ready op' V B ∧
      op'.Input = op.Input ∧ op'.Label = op.Label ∧
      op'.m_inputGPUTensorDescriptor = op.m_inputGPUTensorDescriptor ∧
      op'.m_outputGPUTensorDescriptor = op.m_outputGPUTensorDescriptor ∧
      (∀ b, b < B → ∀ i, i < V →
        op'.outputAt (b * V + i) = rowExp exp op V b i / rowSum exp op V b) ∧
      (∀ b, b < B → op'.costAt b =
        -(log ((if op.labelAt b < V then rowExp exp op V b (op.labelAt b) else op.costAt b) /
          rowSum exp op V b))) := by
  obtain ⟨input, label, cost, output, hI, hL, hC, hO, hsi, hsl, hsc, hso, hli, hll, hlc, hlo,
    hN⟩ := h
  have hin : input.Holds ⟨[V, B]⟩ (V * B) op.inputAt :=
    ⟨hsi, by simp [hli, hsi, Shape.size], fun k _ => by simp [inputAt, hI]⟩
  have hl : label.Holds ⟨[1, B]⟩ B op.labelAt :=
    ⟨hsl, by simp [hll, hsl, Shape.size], fun k _ => by simp [labelAt, hL]⟩
  have hc : cost.Holds ⟨[1, B]⟩ B op.costAt :=
    ⟨hsc, by simp [hlc, hsc, Shape.size], fun k _ => by simp [costAt, hC]⟩
  have ho : output.Holds ⟨[V, B]⟩ (V * B) op.outputAt :=
    ⟨hso, by simp [hlo, hso, Shape.size], fun k _ => by simp [outputAt, hO]⟩
  obtain ⟨⟨c', o'⟩, hrun, hc', ho'⟩ := forLoop_inv B (batchStep exp log input label V)
    (fun b s =>
      s.1.Holds ⟨[1, B]⟩ B (fun k => if k < b then
          -(log ((if op.labelAt k < V then rowExp exp op V k (op.labelAt k) else op.costAt k) /
            rowSum exp op V k))
        else op.costAt k) ∧
      s.2.Holds ⟨[V, B]⟩ (V * B) (fun k => if k < b * V then
          rowExp exp op V (k / V) (k - k / V * V) / rowSum exp op V (k / V)
        else op.outputAt k))
    0 (cost, output) (Nat.zero_le B)
    ⟨holds_congr hc (by intro k _; simp), holds_congr ho (by intro k _; simp)⟩
    (by
      rintro b ⟨ct, ot⟩ - hb ⟨hct, hot⟩
      simp only at hct hot
      obtain ⟨ct', ot', hstep, hct', hot'⟩ := batchStep_eq exp log hin hl hct hot hb hV hN
      refine ⟨(ct', ot'), hstep, holds_congr hct' ?_, holds_congr hot' ?_⟩
      · intro k _
        by_cases hk : k = b
        · subst hk
          simp only [if_pos (Nat.lt_succ_self k), if_neg (Nat.lt_irrefl k), if_true]
          rfl
        · have : k < b + 1 ↔ k < b := by omega
          simp only [if_neg hk, this]
      · intro k _
        by_cases hk : b * V ≤ k ∧ k < b * V + V
        · have hdiv := row_of_index hk.1 hk.2
          have hlt : k < (b + 1) * V := by rw [Nat.add_mul, Nat.one_mul]; exact hk.2
          simp only [if_pos hk, if_pos hlt, hdiv]
          rfl
        · have : k < (b + 1) * V ↔ k < b * V := by
            rw [Nat.add_mul, Nat.one_mul]; omega
          simp only [if_neg hk, this])
  simp only at hc' ho'
  refine ⟨{ op with Cost := some c', Output := some o' }, ?_, ?_, rfl, rfl, rfl, rfl, ?_, ?_⟩
  · simp only [evaluate, hI, hL, hC, hO, hsi, Shape.get, bind, Except.bind]
    simp [hrun]
  · exact ⟨input, label, c', o', hI, hL, rfl, rfl, hsi, hsl, hc'.1, ho'.1, hli, hll,
      by simp [hc'.2.1, hc'.1, Shape.size], by simp [ho'.2.1, ho'.1, Shape.size], hN⟩
  · intro b hb i hi
    obtain ⟨-, e2⟩ := flat_index hb hi hN
    have hlt : b * V + i < B * V := by rw [Nat.mul_comm B V]; exact e2
    have hdiv : (b * V + i) / V = b := row_of_index (Nat.le_add_right _ _) (by omega)
    have := ho'.2.2 (b * V + i) e2
    simp only [if_pos hlt, hdiv, Nat.add_sub_cancel_left] at this
    simpa [outputAt] using this
  · intro b hb
    have := hc'.2.2 b hb
    simp only [if_pos hb] at this
    simpa [costAt] using this

omit [OfNat α 0] [Add α] [Sub α] [Div α] [Neg α] [LT α]
  [DecidableRel (fun a b : α => a < b)] in
/-- A flat index belongs to row `b` exactly when it lies in the row's range. -/
theorem row_of_index_iff {V b k : Nat} (hV : 1 ≤ V) :
    k / V = b ↔ (b * V ≤ k ∧ k < b * V + V) := by
  constructor
  · intro e
    have h1 := Nat.div_add_mod k V
    have h2 := Nat.mod_lt k (show V > 0 from hV)
    rw [e, Nat.mul_comm V b] at h1
    omega
  · intro h
    exact row_of_index h.1 h.2

/-- The iterations of the batch loop taken in any order `todo` (distinct batch
elements below `B`, none of them in `done`): every row taken receives its
results, every other row is left as it was. -/
theorem batchFold_eq (exp log : α → α) (op : SoftmaxLogLoss α) {input : Tensor α}
    {label : Tensor Nat} {sh shl shc sho : Shape} {V B : Nat}
    (hin : input.Holds sh (V * B) op.inputAt) (hl : label.Holds shl B op.labelAt)
    (hV : 1 ≤ V) (hN : V * B < 2 ^ 32) :
    ∀ (todo done : List Nat) (ct ot : Tensor α),
      (∀ b, b ∈ todo → b < B) → todo.Nodup → (∀ b, b ∈ todo → b ∉ done) →
      ct.Holds shc B (fun k => if k ∈ done then
          -(log ((if op.labelAt k < V then rowExp exp op V k (op.labelAt k) else op.costAt k) /
            rowSum exp op V k))
        else op.costAt k) →
      ot.Holds sho (V * B) (fun k => if k / V ∈ done then
          rowExp exp op V (k / V) (k - k / V * V) / rowSum exp op V (k / V)
        else op.outputAt k) →
      ∃ ct' ot',
        todo.foldlM (fun s b => batchStep exp log input label V b s) (ct, ot) =
          .ok (ct', ot') ∧
        ct'.Holds shc B (fun k => if k ∈ done ++ todo then
            -(log ((if op.labelAt k < V then rowExp exp op V k (op.labelAt k)
                else op.costAt k) / rowSum exp op V k))
          else op.costAt k) ∧
        ot'.Holds sho (V * B) (fun k => if k / V ∈ done ++ todo then
            rowExp exp op V (k / V) (k - k / V * V) / rowSum exp op V (k / V)
          else op.outputAt k) := by
  intro todo
  induction todo with
  | nil =>
    intro done ct ot _ _ _ hct hot
    exact ⟨ct, ot, rfl, by simpa using hct, by simpa using hot⟩
  | cons b rest ih =>
    intro done ct ot hlt hnd hdis hct hot
    have hb : b < B := hlt b (List.mem_cons_self b rest)
    have hbd : b ∉ done := hdis b (List.mem_cons_self b rest)
    obtain ⟨hbr, hnd'⟩ := List.nodup_cons.mp hnd
    obtain ⟨ct', ot', hstep, hct', hot'⟩ := batchStep_eq exp log hin hl hct hot hb hV hN
    obtain ⟨ct'', ot'', hrun, hct'', hot''⟩ := ih (done ++ [b]) ct' ot'
      (fun b' hb' => hlt b' (List.mem_cons_of_mem b hb')) hnd'
      (by
        intro b' hb' hmem
        rcases List.mem_append.mp hmem with hm | hm
        · exact hdis b' (List.mem_cons_of_mem b hb') hm
        · have : b' = b := by simpa using hm
          exact hbr (this ▸ hb'))
      (holds_congr hct' (by
        intro k _
        by_cases hk : k = b
        · subst hk
          have hmem : k ∈ done ++ [k] := by simp
          simp only [if_pos hmem, if_neg hbd, if_true]
          rfl
        · have : k ∈ done ++ [b] ↔ k ∈ done := by simp [hk]
          simp only [if_neg hk, this]))
      (holds_congr hot' (by
        intro k _
        by_cases hk : b * V ≤ k ∧ k < b * V + V
        · have hdiv := row_of_index hk.1 hk.2
          have hmem : b ∈ done ++ [b] := by simp
          simp only [if_pos hk, hdiv, if_pos hmem]
          rfl
        · have hne : ¬ k / V = b := fun e => hk ((row_of_index_iff hV).mp e)
          have : k / V ∈ done ++ [b] ↔ k / V ∈ done := by simp [hne]
          simp only [if_neg hk, this]))
    refine ⟨ct'', ot'', ?_, ?_, ?_⟩
    · simp only [List.foldlM_cons, hstep, bind, Except.bind]
      exact hrun
    · simpa [List.append_assoc] using hct''
    · simpa [List.append_assoc] using hot''

/-- What the batch loop computes when its iterations are taken in the order
`order` (distinct batch elements below `B`): the rows in `order` receive the
results that `evaluate` gives them, every other row of `Output` and entry of
`Cost` is left as it was. -/
theorem evaluateInOrder_eq (exp log : α → α) (op : SoftmaxLogLoss α) (V B : Nat)
    (order : List Nat) (h : Ready op V B) (hV : 1 ≤ V)
    (hlt : ∀ b, b ∈ order → b < B) (hnd : order.Nodup) :
    ∃ op', evaluateInOrder exp log order op = .ok op' ∧ Ready op' V B ∧
      op'.Input = op.Input ∧ op'.Label = op.Label ∧
      op'.m_inputGPUTensorDescriptor = op.m_inputGPUTensorDescriptor ∧
      op'.m_outputGPUTensorDescriptor = op.m_outputGPUTensorDescriptor ∧
      (∀ b, b < B → ∀ i, i < V → op'.outputAt (b * V + i) =
        if b ∈ order then rowExp exp op V b i / rowSum exp op V b
        else op.outputAt (b * V + i)) ∧
      (∀ b, b < B → op'.costAt b =
        if b ∈ order then
          -(log ((if op.labelAt b < V then rowExp exp op V b (op.labelAt b)
              else op.costAt b) / rowSum exp op V b))
        else op.costAt b) := by
  obtain ⟨input, label, cost, output, hI, hL, hC, hO, hsi, hsl, hsc, hso, hli, hll, hlc, hlo,
    hN⟩ := h
  have hin : input.Holds ⟨[V, B]⟩ (V * B) op.inputAt :=
    ⟨hsi, by simp [hli, hsi, Shape.size], fun k _ => by simp [inputAt, hI]⟩
  have hl : label.Holds ⟨[1, B]⟩ B op.labelAt :=
    ⟨hsl, by simp [hll, hsl, Shape.size], fun k _ => by simp [labelAt, hL]⟩
  have hc : cost.Holds ⟨[1, B]⟩ B op.costAt :=
    ⟨hsc, by simp [hlc, hsc, Shape.size], fun k _ => by simp [costAt, hC]⟩
  have ho : output.Holds ⟨[V, B]⟩ (V * B) op.outputAt :=
    ⟨hso, by simp [hlo, hso, Shape.size], fun k _ => by simp [outputAt, hO]⟩
  obtain ⟨c', o', hrun, hc', ho'⟩ := batchFold_eq exp log op hin hl hV hN order [] cost output
    hlt hnd (fun _ _ hm => by simp at hm)
    (holds_congr hc (by intro k _; simp)) (holds_congr ho (by intro k _; simp))
  simp only [List.nil_append] at hc' ho'
  refine ⟨{ op with Cost := some c', Output := some o' }, ?_, ?_, rfl, rfl, rfl, rfl, ?_, ?_⟩
  · simp only [evaluateInOrder, hI, hL, hC, hO, hsi, Shape.get, bind, Except.bind]
    simp [hrun]
  · exact ⟨input, label, c', o', hI, hL, rfl, rfl, hsi, hsl, hc'.1, ho'.1, hli, hll,
      by simp [hc'.2.1, hc'.1, Shape.size], by simp [ho'.2.1, ho'.1, Shape.size], hN⟩
  · intro b hb i hi
    obtain ⟨-, e2⟩ := flat_index hb hi hN
    have hdiv : (b * V + i) / V = b := row_of_index (Nat.le_add_right _ _) (by omega)
    have := ho'.2.2 (b * V + i) e2
    simp only [hdiv, Nat.add_sub_cancel_left] at this
    simpa [outputAt] using this
  · intro b hb
    have := hc'.2.2 b hb
    simpa [costAt] using this

omit [OfNat α 0] [Add α] [Sub α] [Div α] [Neg α] [LT α]
  [DecidableRel (fun a b : α => a < b)] in
/-- Two states with the same fields are equal. -/
theorem state_ext {op₁ op₂ : SoftmaxLogLoss α} (hI : op₂.Input = op₁.Input)
    (hL : op₂.Label = op₁.Label) (hC : op₂.Cost = op₁.Cost) (hO : op₂.Output = op₁.Output)
    (hd : op₂.m_inputGPUTensorDescriptor = op₁.m_inputGPUTensorDescriptor)
    (hd' : op₂.m_outputGPUTensorDescriptor = op₁.m_outputGPUTensorDescriptor) :
    op₂ = op₁ := by
  obtain ⟨i, l, c, o, d, d'⟩ := op₁
  obtain ⟨i', l', c', o', e, e'⟩ := op₂
  simp only at hI hL hC hO hd hd'
  subst hI hL hC hO hd hd'
  rfl

omit [Add α] [Sub α] [Div α] [Neg α] [LT α] [DecidableRel (fun a b : α => a < b)] in
/-- Two valid states whose `Output` entries agree row by row have the same
`Output` tensor. -/
theorem output_eq_of_rows {op₁ op₂ : SoftmaxLogLoss α} {V B : Nat}
    (h₁ : Ready op₁ V B) (h₂ : Ready op₂ V B) (hV : 1 ≤ V)
    (e : ∀ b, b < B → ∀ i, i < V → op₂.outputAt (b * V + i) = op₁.outputAt (b * V + i)) :
    op₂.Output = op₁.Output := by
  obtain ⟨-, -, -, o₁, -, -, -, hO₁, -, -, -, hs₁, -, -, -, hl₁, -⟩ := h₁
  obtain ⟨-, -, -, o₂, -, -, -, hO₂, -, -, -, hs₂, -, -, -, hl₂, -⟩ := h₂
  rw [hO₁, hO₂]
  congr 1
  have n₁ : o₁.data.length = V * B := by simp [hl₁, hs₁, Shape.size]
  have n₂ : o₂.data.length = V * B := by simp [hl₂, hs₂, Shape.size]
  refine tensor_ext (hs₂.trans hs₁.symm) (n₂.trans n₁.symm) (fun k hk => ?_)
  rw [n₂] at hk
  have hVpos : 0 < V := hV
  have hdiv : k / V < B := (Nat.div_lt_iff_lt_mul hVpos).mpr (by rw [Nat.mul_comm]; exact hk)
  have := e (k / V) hdiv (k % V) (Nat.mod_lt k hVpos)
  rw [Nat.mul_comm (k / V) V, Nat.div_add_mod] at this
  simpa [outputAt, hO₁, hO₂] using this

omit [Add α] [Sub α] [Div α] [Neg α] [LT α] [DecidableRel (fun a b : α => a < b)] in
/-- Two valid states whose `Cost` entries agree have the same `Cost` tensor. -/
theorem cost_eq_of_entries {op₁ op₂ : SoftmaxLogLoss α} {V B : Nat}
    (h₁ : Ready op₁ V B) (h₂ : Ready op₂ V B)
    (e : ∀ b, b < B → op₂.costAt b = op₁.costAt b) :
    op₂.Cost = op₁.Cost := by
  obtain ⟨-, -, c₁, -, -, -, hC₁, -, -, -, hs₁, -, -, -, hl₁, -, -⟩ := h₁
  obtain ⟨-, -, c₂, -, -, -, hC₂, -, -, -, hs₂, -, -, -, hl₂, -, -⟩ := h₂
  rw [hC₁, hC₂]
  congr 1
  have n₁ : c₁.data.length = B := by simp [hl₁, hs₁, Shape.size]
  have n₂ : c₂.data.length = B := by simp [hl₂, hs₂, Shape.size]
  refine tensor_ext (hs₂.trans hs₁.symm) (n₂.trans n₁.symm) (fun k hk => ?_)
  rw [n₂] at hk
  have := e k hk
  simpa [costAt, hC₁, hC₂] using this

omit [OfNat α 0] [Add α] [Sub α] [Div α] [Neg α] [LT α]
  [DecidableRel (fun a b : α => a < b)] in
/-- What a loop that ends without fault has preserved: a property of the
state that no iteration destroys. -/
theorem forLoop_preserves {σ : Type} (hi : Nat) (body : Nat → σ → Except Fault σ)
    (Q : σ → Prop) (step : ∀ j t t', j < hi → Q t → body j t = .ok t' → Q t')
    (i : Nat) (s r : σ) (h0 : Q s) (hrun : forLoop hi body i s = .ok r) : Q r := by
  obtain ⟨n, hn⟩ : ∃ n, n = hi - i := ⟨_, rfl⟩
  induction n generalizing i s with
  | zero =>
    have : ¬ i < hi := by omega
    rw [forLoop, if_neg this] at hrun
    cases hrun
    exact h0
  | succ n ih =>
    have hlt : i < hi := by omega
    rw [forLoop, if_pos hlt] at hrun
    cases hb : body i s with
    | error e => simp [hb, bind, Except.bind] at hrun
    | ok t =>
      simp only [hb, bind, Except.bind] at hrun
      exact ih (i + 1) t (step i s t hlt h0 hb) hrun (by omega)

omit [Div α] [Neg α] [LT α] [DecidableRel (fun a b : α => a < b)] in
/-- With `label ≥ V` the capture `if (i == label)` of the second scan never
fires: the scan leaves the `Cost` tensor as it found it. -/
theorem expScan_no_capture (exp : α → α) (input cost output : Tensor α) (maximum : α)
    (label b V : Nat) (hl : V ≤ label) (r : α × Tensor α × Tensor α)
    (hrun : forLoop V (expStep exp input maximum label b V) 0 (0, cost, output) = .ok r) :
    r.2.1 = cost := by
  refine forLoop_preserves V (expStep exp input maximum label b V) (fun s => s.2.1 = cost)
    ?_ 0 (0, cost, output) r rfl hrun
  intro j t t' hj hQ hstep
  have hne : ¬ j = label := by omega
  simp only [expStep, if_neg hne, bind, Except.bind] at hstep
  split at hstep
  · cases hstep
  · split at hstep
    · cases hstep
    · cases hstep
      exact hQ

omit [OfNat α 0] [Add α] [Sub α] [Div α] [Neg α] [LT α]
  [DecidableRel (fun a b : α => a < b)] in
/-- Contents of the right lengths, with `V * B` below `2 ^ 32`, make a valid
input. -/
theorem ready_ofData (V B : Nat) (input : List α) (label : List Nat) (cost output : List α)
    (hi : input.length = V * B) (hl : label.length = B) (hc : cost.length = B)
    (ho : output.length = V * B) (hN : V * B < 2 ^ 32) :
    Ready (ofData V B input label cost output) V B :=
  ⟨_, _, _, _, rfl, rfl, rfl, rfl, rfl, rfl, rfl, rfl, by simpa [Shape.size] using hi,
    by simpa [Shape.size] using hl, by simpa [Shape.size] using hc,
    by simpa [Shape.size] using ho, hN⟩

omit [OfNat α 0] [Add α] [Sub α] [Div α] [Neg α] in
/-- The running maximum depends on the visited elements only. -/
theorem scanMax_congr (f g : Nat → α) (n : Nat) (h : ∀ j, j ≤ n → f j = g j) :
    scanMax f n = scanMax g n := by
  induction n with
  | zero => exact h 0 (le_refl 0)
  | succ n ih =>
    rw [scanMax, scanMax, ih (fun j hj => h j (by omega)), h (n + 1) (le_refl _)]

omit [Sub α] [Div α] [Neg α] [LT α] [DecidableRel (fun a b : α => a < b)] in
/-- The running sum depends on the added elements only. -/
theorem scanSum_congr (f g : Nat → α) (n : Nat) (h : ∀ j, j < n → f j = g j) :
    scanSum f n = scanSum g n := by
  induction n with
  | zero => rfl
  | succ n ih =>
    rw [scanSum, scanSum, ih (fun j hj => h j (by omega)), h n (Nat.lt_succ_self n)]

end Scans

/-! ## The scans over the real numbers -/

/-- Over the reals `expSum` is the sum of the stored exponentials. -/
theorem scanSum_eq_sum (f : Nat → ℝ) (n : Nat) :
    scanSum f n = ∑ j in Finset.range n, f j := by
  induction n with
  | zero => simp [scanSum]
  | succ n ih => rw [scanSum, ih, Finset.sum_range_succ]

/-- The running maximum bounds every element visited so far. -/
theorem scanMax_ge (f : Nat → ℝ) (n : Nat) : ∀ j, j ≤ n → f j ≤ scanMax f n := by
  induction n with
  | zero =>
    intro j hj
    have : j = 0 := by omega
    subst this
    exact le_refl _
  | succ n ih =>
    intro j hj
    rw [scanMax]
    by_cases hjn : j = n + 1
    · subst hjn
      split_ifs with hlt
      · exact le_refl _
      · exact not_lt.mp hlt
    · have hle := ih j (by omega)
      split_ifs with hlt
      · exact le_of_lt (lt_of_le_of_lt hle hlt)
      · exact hle

/-- The running maximum is one of the elements visited so far. -/
theorem scanMax_mem (f : Nat → ℝ) (n : Nat) : ∃ j, j ≤ n ∧ scanMax f n = f j := by
  induction n with
  | zero => exact ⟨0, le_refl 0, rfl⟩
  | succ n ih =>
    obtain ⟨j, hj, e⟩ := ih
    rw [scanMax]
    split_ifs with hlt
    · exact ⟨n + 1, le_refl _, rfl⟩
    · exact ⟨j, by omega, e⟩

/-- Adding a constant to every element adds it to the running maximum. -/
theorem scanMax_shift (f : Nat → ℝ) (c : ℝ) (n : Nat) :
    scanMax (fun j => f j + c) n = scanMax f n + c := by
  induction n with
  | zero => rfl
  | succ n ih =>
    rw [scanMax, scanMax, ih]
    by_cases hlt : f (n + 1) > scanMax f n
    · have : f (n + 1) + c > scanMax f n + c := by linarith
      rw [if_pos this, if_pos hlt]
    · have : ¬ f (n + 1) + c > scanMax f n + c := by
        intro h
        exact hlt (by linarith)
      rw [if_neg this, if_neg hlt]

/-- Over the reals `maximum` is the greatest element of the row. -/
theorem rowMax_isGreatest (op : SoftmaxLogLoss ℝ) (V b : Nat) (hV : 1 ≤ V) :
    IsGreatest {y | ∃ j, j < V ∧ y = op.inputAt (b * V + j)} (rowMax op V b) := by
  constructor
  · obtain ⟨j, hj, e⟩ := scanMax_mem (fun j => op.inputAt (b * V + j)) (V - 1)
    exact ⟨j, by omega, e⟩
  · rintro y ⟨j, hj, rfl⟩
    exact scanMax_ge (fun j => op.inputAt (b * V + j)) (V - 1) j (by omega)

/-- Over the reals `expSum` is the sum of the exponentials of the row. -/
theorem rowSum_eq_sum (op : SoftmaxLogLoss ℝ) (V b : Nat) :
    rowSum Real.exp op V b =
      ∑ j in Finset.range V, Real.exp (op.inputAt (b * V + j) - rowMax op V b) := by
  rw [rowSum, scanSum_eq_sum]
  rfl

/-- With at least one class `expSum` is positive. -/
theorem rowSum_pos (op : SoftmaxLogLoss ℝ) (V b : Nat) (hV : 1 ≤ V) :
    0 < rowSum Real.exp op V b := by
  rw [rowSum_eq_sum]
  exact Finset.sum_pos (fun j _ => Real.exp_pos _) ⟨0, Finset.mem_range.mpr (by omega)⟩

/-- Shifting a row of `Input` by a constant changes neither the stored
exponentials of that row nor their sum. -/
theorem row_shift (op op₂ : SoftmaxLogLoss ℝ) (V b : Nat) (c : ℝ)
    (hrow : ∀ i, i < V → op₂.inputAt (b * V + i) = op.inputAt (b * V + i) + c) :
    (∀ i, i < V → rowExp Real.exp op₂ V b i = rowExp Real.exp op V b i) ∧
      rowSum Real.exp op₂ V b = rowSum Real.exp op V b := by
  have hexp : ∀ i, i < V → rowExp Real.exp op₂ V b i = rowExp Real.exp op V b i := by
    intro i hi
    have hmax : rowMax op₂ V b = rowMax op V b + c := by
      rw [rowMax, rowMax, ← scanMax_shift]
      exact scanMax_congr _ _ _ (fun j hj => hrow j (by omega))
    rw [rowExp, rowExp, hmax, hrow i hi]
    congr 1
    ring
  exact ⟨hexp, scanSum_congr _ _ _ hexp⟩

/-! ## The contract of the reference `evaluate` -/

/-- C2: on every valid input with `V ≥ 1` the reference `evaluate` ends without
fault and, for every batch element `b` and class `i < V`, `Output[b * V + i]`
equals `exp (Input[b * V + i] - m) / ∑ j < V, exp (Input[b * V + j] - m)` with
`m` the maximum of row `b` of `Input`; this is the softmax of the row,
`exp (Input[b * V + i]) / ∑ j < V, exp (Input[b * V + j])`. -/
theorem evaluate_output_softmax (op : SoftmaxLogLoss ℝ) (V B : Nat)
    (h : Ready op V B) (hV : 1 ≤ V) :
    ∃ op', evaluate Real.exp Real.log op = .ok op' ∧ Ready op' V B ∧ op'.Input = op.Input ∧
      ∀ b, b < B → ∃ m, IsGreatest {y | ∃ j, j < V ∧ y = op.inputAt (b * V + j)} m ∧
        ∀ i, i < V →
          op'.outputAt (b * V + i) =
            Real.exp (op.inputAt (b * V + i) - m) /
              ∑ j in Finset.range V, Real.exp (op.inputAt (b * V + j) - m) ∧
          op'.outputAt (b * V + i) =
            Real.exp (op.inputAt (b * V + i)) /
              ∑ j in Finset.range V, Real.exp (op.inputAt (b * V + j)) := by
  obtain ⟨op', hrun, hready, hI, -, -, -, hout, -⟩ := evaluate_eq Real.exp Real.log op V B h hV
  refine ⟨op', hrun, hready, hI, fun b hb => ⟨rowMax op V b, rowMax_isGreatest op V b hV, ?_⟩⟩
  intro i hi
  have e1 : op'.outputAt (b * V + i) =
      Real.exp (op.inputAt (b * V + i) - rowMax op V b) /
        ∑ j in Finset.range V, Real.exp (op.inputAt (b * V + j) - rowMax op V b) := by
    rw [hout b hb i hi, rowSum_eq_sum]
    rfl
  refine ⟨e1, ?_⟩
  rw [e1]
  simp only [Real.exp_sub]
  rw [← Finset.sum_div]
  exact div_div_div_cancel_right₀ (Real.exp_pos _).ne' _ _

/-- C3: on every valid input with `V ≥ 1`, for every batch element `b` whose
label is in range (`Label[b] < V`), the reference `evaluate` leaves
`Cost[b] = -log (Output[b * V + Label[b]])`, with `Output` as just written. -/
theorem evaluate_cost_neg_log (op : SoftmaxLogLoss ℝ) (V B : Nat)
    (h : Ready op V B) (hV : 1 ≤ V) :
    ∃ op', evaluate Real.exp Real.log op = .ok op' ∧ Ready op' V B ∧ op'.Label = op.Label ∧
      ∀ b, b < B → op.labelAt b < V →
        op'.costAt b = -Real.log (op'.outputAt (b * V + op.labelAt b)) := by
  obtain ⟨op', hrun, hready, -, hL, -, -, hout, hcost⟩ :=
    evaluate_eq Real.exp Real.log op V B h hV
  refine ⟨op', hrun, hready, hL, fun b hb hl => ?_⟩
  rw [hcost b hb, if_pos hl, hout b hb _ hl]

/-- C4: on every valid input with `V ≥ 1`, after the reference `evaluate` the
entries of every row of `Output` sum to exactly 1. -/
theorem evaluate_output_sum_one (op : SoftmaxLogLoss ℝ) (V B : Nat)
    (h : Ready op V B) (hV : 1 ≤ V) :
    ∃ op', evaluate Real.exp Real.log op = .ok op' ∧ Ready op' V B ∧
      ∀ b, b < B → ∑ i in Finset.range V, op'.outputAt (b * V + i) = 1 := by
  obtain ⟨op', hrun, hready, -, -, -, -, hout, -⟩ := evaluate_eq Real.exp Real.log op V B h hV
  refine ⟨op', hrun, hready, fun b hb => ?_⟩
  rw [Finset.sum_congr rfl (fun i hi => hout b hb i (Finset.mem_range.mp hi)),
    ← Finset.sum_div]
  have e : ∑ i in Finset.range V, rowExp Real.exp op V b i = rowSum Real.exp op V b := by
    rw [rowSum_eq_sum]
    rfl
  rw [e]
  exact div_self (rowSum_pos op V b hV).ne'

/-- C5: on every valid input with `V ≥ 1`, after the reference `evaluate` every
entry `Output[b * V + i]` with `b < B` and `i < V` is non-negative. -/
theorem evaluate_output_nonneg (op : SoftmaxLogLoss ℝ) (V B : Nat)
    (h : Ready op V B) (hV : 1 ≤ V) :
    ∃ op', evaluate Real.exp Real.log op = .ok op' ∧ Ready op' V B ∧
      ∀ b, b < B → ∀ i, i < V → 0 ≤ op'.outputAt (b * V + i) := by
  obtain ⟨op', hrun, hready, -, -, -, -, hout, -⟩ := evaluate_eq Real.exp Real.log op V B h hV
  refine ⟨op', hrun, hready, fun b hb i hi => ?_⟩
  rw [hout b hb i hi]
  exact div_nonneg (Real.exp_pos _).le (rowSum_pos op V b hV).le

/-- C6: shift invariance.  On a valid input with `V ≥ 1` and every label in
range, adding a constant `c` to every logit of row `b` of `Input` (all else in
`Input` and `Label` kept) leaves the `Output` and `Cost` tensors that the
reference `evaluate` produces unchanged, in every entry. -/
theorem evaluate_shift_invariant (op op₂ : SoftmaxLogLoss ℝ) (V B : Nat)
    (h : Ready op V B) (h₂ : Ready op₂ V B) (hV : 1 ≤ V)
    (hlab : ∀ b, b < B → op.labelAt b < V) (hL : op₂.Label = op.Label)
    (b : Nat) (hb : b < B) (c : ℝ)
    (hrow : ∀ i, i < V → op₂.inputAt (b * V + i) = op.inputAt (b * V + i) + c)
    (hrest : ∀ b', b' < B → b' ≠ b → ∀ i, i < V →
      op₂.inputAt (b' * V + i) = op.inputAt (b' * V + i)) :
    ∃ op' op₂', evaluate Real.exp Real.log op = .ok op' ∧
      evaluate Real.exp Real.log op₂ = .ok op₂' ∧
      op₂'.Output = op'.Output ∧ op₂'.Cost = op'.Cost := by
  obtain ⟨op', hrun, hready, -, -, -, -, hout, hcost⟩ :=
    evaluate_eq Real.exp Real.log op V B h hV
  obtain ⟨op₂', hrun₂, hready₂, -, -, -, -, hout₂, hcost₂⟩ :=
    evaluate_eq Real.exp Real.log op₂ V B h₂ hV
  have hl : ∀ k, op₂.labelAt k = op.labelAt k := fun k => by simp [labelAt, hL]
  have hrows : ∀ b', b' < B →
      (∀ i, i < V → rowExp Real.exp op₂ V b' i = rowExp Real.exp op V b' i) ∧
        rowSum Real.exp op₂ V b' = rowSum Real.exp op V b' := by
    intro b' hb'
    by_cases e : b' = b
    · subst e
      exact row_shift op op₂ V b' c hrow
    · exact row_shift op op₂ V b' 0 (fun i hi => by rw [hrest b' hb' e i hi, add_zero])
  refine ⟨op', op₂', hrun, hrun₂, ?_, ?_⟩
  · refine output_eq_of_rows hready hready₂ hV (fun b' hb' i hi => ?_)
    rw [hout b' hb' i hi, hout₂ b' hb' i hi, (hrows b' hb').1 i hi, (hrows b' hb').2]
  · refine cost_eq_of_entries hready hready₂ (fun b' hb' => ?_)
    rw [hcost b' hb', hcost₂ b' hb', hl b', if_pos (hlab b' hb'), if_pos (hlab b' hb'),
      (hrows b' hb').1 _ (hlab b' hb'), (hrows b' hb').2]

/-- C7, as the code has it: on a valid input with `V ≥ 1`, for a batch element
`b` with `Label[b] ≥ V` the capture of the second scan never fires (the scan
leaves `Cost` as it found it), and `evaluate` then overwrites `Cost[b]`: when
the value `c` that `Cost[b]` held before the call is positive, the argument
`c / expSum` of the logarithm is positive and `Cost[b]` ends as
`-log (c / expSum)`, `expSum` being the sum of the row's exponentials.  Nothing
is stated for `c ≤ 0`, where the code takes the logarithm of a number that is
not positive. -/
theorem evaluate_cost_label_out_of_range (op : SoftmaxLogLoss ℝ) (V B : Nat)
    (h : Ready op V B) (hV : 1 ≤ V) :
    (∃ op', evaluate Real.exp Real.log op = .ok op' ∧ Ready op' V B ∧
      ∀ b, b < B → V ≤ op.labelAt b → 0 < op.costAt b →
        ∃ m, IsGreatest {y | ∃ j, j < V ∧ y = op.inputAt (b * V + j)} m ∧
          0 < op.costAt b / ∑ j in Finset.range V, Real.exp (op.inputAt (b * V + j) - m) ∧
          op'.costAt b = -Real.log (op.costAt b /
            ∑ j in Finset.range V, Real.exp (op.inputAt (b * V + j) - m))) ∧
    (∀ (input cost output : Tensor ℝ) (maximum : ℝ) (label b : Nat)
        (r : ℝ × Tensor ℝ × Tensor ℝ), V ≤ label →
      forLoop V (expStep Real.exp input maximum label b V) 0 (0, cost, output) = .ok r →
      r.2.1 = cost) := by
  obtain ⟨op', hrun, hready, -, -, -, -, -, hcost⟩ := evaluate_eq Real.exp Real.log op V B h hV
  refine ⟨⟨op', hrun, hready, fun b hb hl hc =>
      ⟨rowMax op V b, rowMax_isGreatest op V b hV, ?_, ?_⟩⟩,
    fun input cost output maximum label b r hl hr =>
      expScan_no_capture Real.exp input cost output maximum label b V hl r hr⟩
  · rw [← rowSum_eq_sum]
    exact div_pos hc (rowSum_pos op V b hV)
  · rw [hcost b hb, if_neg (by omega), rowSum_eq_sum]

/-- C7, as stated, fails.  With `V = 1`, `B = 1`, `Input = [0]`, `Label = [1]`
(out of range) and `Cost = [1]` before the call, `evaluate` ends with
`Cost[0] = 0`: the prior value is not retained. -/
theorem cost_not_retained :
    ∃ op', evaluate Real.exp Real.log labelOutOfRange = .ok op' ∧
      1 ≤ labelOutOfRange.labelAt 0 ∧
      labelOutOfRange.costAt 0 = 1 ∧ op'.costAt 0 = 0 ∧
      op'.costAt 0 ≠ labelOutOfRange.costAt 0 := by
  obtain ⟨op', hrun, -, -, -, -, -, -, hcost⟩ := evaluate_eq Real.exp Real.log
    labelOutOfRange 1 1
    (ready_ofData 1 1 _ _ _ _ rfl rfl rfl rfl (by norm_num)) (le_refl 1)
  have e := hcost 0 (by norm_num)
  have e0 : op'.costAt 0 = 0 := by
    rw [e]
    simp [rowSum, scanSum, rowExp, rowMax, scanMax, labelAt, costAt, inputAt, ofData,
      labelOutOfRange, Tensor.elem]
  have e1 : labelOutOfRange.costAt 0 = 1 := by
    simp [costAt, ofData, labelOutOfRange, Tensor.elem]
  refine ⟨op', hrun, by simp [labelAt, ofData, labelOutOfRange, Tensor.elem], e1, e0, ?_⟩
  rw [e0, e1]
  norm_num

/-- C9: the reference `evaluate` recomputes its results from the current
`Input` and `Label` only.  On valid inputs with `V ≥ 1` and every label in
range that agree on `Input` and `Label`, whatever `Output` and `Cost` held
before, the `Output` and `Cost` tensors after `evaluate` are the same; and a
second call in a row ends in the very state the first call produced. -/
theorem evaluate_recomputes (op₁ op₂ : SoftmaxLogLoss ℝ) (V B : Nat)
    (h₁ : Ready op₁ V B) (h₂ : Ready op₂ V B) (hV : 1 ≤ V)
    (hlab : ∀ b, b < B → op₁.labelAt b < V)
    (hI : op₂.Input = op₁.Input) (hL : op₂.Label = op₁.Label) :
    ∃ op₁' op₂', evaluate Real.exp Real.log op₁ = .ok op₁' ∧
      evaluate Real.exp Real.log op₂ = .ok op₂' ∧
      op₂'.Output = op₁'.Output ∧ op₂'.Cost = op₁'.Cost ∧
      evaluate Real.exp Real.log op₁' = .ok op₁' := by
  have key : ∀ (a a₂ : SoftmaxLogLoss ℝ), Ready a V B → Ready a₂ V B →
      (∀ b, b < B → a.labelAt b < V) → a₂.Input = a.Input → a₂.Label = a.Label →
      ∀ a' a₂', evaluate Real.exp Real.log a = .ok a' →
        evaluate Real.exp Real.log a₂ = .ok a₂' →
        a₂'.Output = a'.Output ∧ a₂'.Cost = a'.Cost := by
    intro a a₂ ha ha₂ hla hIa hLa a' a₂' hr hr₂
    obtain ⟨x', hrun, hready, -, -, -, -, hout, hcost⟩ :=
      evaluate_eq Real.exp Real.log a V B ha hV
    obtain ⟨x₂', hrun₂, hready₂, -, -, -, -, hout₂, hcost₂⟩ :=
      evaluate_eq Real.exp Real.log a₂ V B ha₂ hV
    rw [hr] at hrun
    rw [hr₂] at hrun₂
    cases hrun
    cases hrun₂
    have hl : ∀ k, a₂.labelAt k = a.labelAt k := fun k => by simp [labelAt, hLa]
    have hx : ∀ k, a₂.inputAt k = a.inputAt k := fun k => by simp [inputAt, hIa]
    have hrows : ∀ b', (∀ i, i < V → rowExp Real.exp a₂ V b' i = rowExp Real.exp a V b' i) ∧
        rowSum Real.exp a₂ V b' = rowSum Real.exp a V b' :=
      fun b' => row_shift a a₂ V b' 0 (fun i _ => by rw [hx, add_zero])
    constructor
    · refine output_eq_of_rows hready hready₂ hV (fun b' hb' i hi => ?_)
      rw [hout b' hb' i hi, hout₂ b' hb' i hi, (hrows b').1 i hi, (hrows b').2]
    · refine cost_eq_of_entries hready hready₂ (fun b' hb' => ?_)
      rw [hcost b' hb', hcost₂ b' hb', hl b', if_pos (hla b' hb'), if_pos (hla b' hb'),
        (hrows b').1 _ (hla b' hb'), (hrows b').2]
  obtain ⟨op₁', hrun₁, hready₁, hI₁, hL₁, hd₁, hd₁', -, -⟩ :=
    evaluate_eq Real.exp Real.log op₁ V B h₁ hV
  obtain ⟨op₂', hrun₂, -, -, -, -, -, -, -⟩ := evaluate_eq Real.exp Real.log op₂ V B h₂ hV
  obtain ⟨op₁'', hrun₁', -, hI₁', hL₁', hd₂, hd₂', -, -⟩ :=
    evaluate_eq Real.exp Real.log op₁' V B hready₁ hV
  obtain ⟨eO, eC⟩ := key op₁ op₂ h₁ h₂ hlab hI hL op₁' op₂' hrun₁ hrun₂
  obtain ⟨eO', eC'⟩ := key op₁ op₁' h₁ hready₁ hlab hI₁ hL₁ op₁' op₁'' hrun₁ hrun₁'
  refine ⟨op₁', op₂', hrun₁, hrun₂, eO, eC, ?_⟩
  rw [hrun₁']
  congr 1
  obtain ⟨i, l, c, o, d, d'⟩ := op₁'
  obtain ⟨i', l', c', o', e, e'⟩ := op₁''
  simp only at hI₁' hL₁' hd₂ hd₂' eO' eC'
  subst hI₁' hL₁' hd₂ hd₂' eO' eC'
  rfl

/-- C10: batch elements are independent in the reference `evaluate`.  Two
valid inputs (same `V ≥ 1` and `B`, label of row `b` in range) that agree on
row `b` of `Input` and on `Label[b]` get the same row `b` of `Output` and the
same `Cost[b]`; iteration `b` on its own writes row `b` of `Output` and
`Cost[b]` only; and the iterations taken in any order end in the state that
`evaluate` produces. -/
theorem evaluate_rows_independent (op₁ op₂ : SoftmaxLogLoss ℝ) (V B : Nat)
    (h₁ : Ready op₁ V B) (h₂ : Ready op₂ V B) (hV : 1 ≤ V)
    (b : Nat) (hb : b < B) (hlab : op₁.labelAt b < V)
    (hrow : ∀ i, i < V → op₂.inputAt (b * V + i) = op₁.inputAt (b * V + i))
    (hl : op₂.labelAt b = op₁.labelAt b) :
    ∃ op₁' op₂', evaluate Real.exp Real.log op₁ = .ok op₁' ∧
      evaluate Real.exp Real.log op₂ = .ok op₂' ∧ Ready op₁' V B ∧ Ready op₂' V B ∧
      (∀ i, i < V → op₂'.outputAt (b * V + i) = op₁'.outputAt (b * V + i)) ∧
      op₂'.costAt b = op₁'.costAt b ∧
      (∃ s, evaluateInOrder Real.exp Real.log [b] op₁ = .ok s ∧ Ready s V B ∧
        ∀ b', b' < B → b' ≠ b →
          (∀ i, i < V → s.outputAt (b' * V + i) = op₁.outputAt (b' * V + i)) ∧
          s.costAt b' = op₁.costAt b') ∧
      (∀ order : List Nat, order.Perm (List.range B) →
        evaluateInOrder Real.exp Real.log order op₁ = .ok op₁') := by
  obtain ⟨op₁', hrun₁, hready₁, hI₁, hL₁, hd₁, hd₁', hout₁, hcost₁⟩ :=
    evaluate_eq Real.exp Real.log op₁ V B h₁ hV
  obtain ⟨op₂', hrun₂, hready₂, -, -, -, -, hout₂, hcost₂⟩ :=
    evaluate_eq Real.exp Real.log op₂ V B h₂ hV
  obtain ⟨hexp, hsum⟩ := row_shift op₁ op₂ V b 0 (fun i hi => by rw [hrow i hi, add_zero])
  refine ⟨op₁', op₂', hrun₁, hrun₂, hready₁, hready₂, ?_, ?_, ?_, ?_⟩
  · intro i hi
    rw [hout₁ b hb i hi, hout₂ b hb i hi, hexp i hi, hsum]
  · rw [hcost₁ b hb, hcost₂ b hb, hl, if_pos hlab, if_pos hlab, hexp _ hlab, hsum]
  · obtain ⟨s, hs, hsr, -, -, -, -, hso, hsc⟩ := evaluateInOrder_eq Real.exp Real.log op₁ V B [b]
      h₁ hV (fun b' hb' => by
        have : b' = b := by simpa using hb'
        exact this ▸ hb) (List.nodup_singleton b)
    refine ⟨s, hs, hsr, fun b' hb' hne => ⟨fun i hi => ?_, ?_⟩⟩
    · have hmem : ¬ b' ∈ [b] := by simpa using hne
      rw [hso b' hb' i hi, if_neg hmem]
    · have hmem : ¬ b' ∈ [b] := by simpa using hne
      rw [hsc b' hb', if_neg hmem]
  · intro order hperm
    have hmem : ∀ b', b' < B → b' ∈ order := fun b' hb' =>
      hperm.mem_iff.mpr (List.mem_range.mpr hb')
    obtain ⟨s, hs, hsr, hsI, hsL, hsd, hsd', hso, hsc⟩ :=
      evaluateInOrder_eq Real.exp Real.log op₁ V B order h₁ hV
        (fun b' hb' => List.mem_range.mp (hperm.mem_iff.mp hb'))
        (hperm.nodup_iff.mpr (List.nodup_range B))
    rw [hs]
    congr 1
    refine state_ext (hsI.trans hI₁.symm) (hsL.trans hL₁.symm) ?_ ?_ (hsd.trans hd₁.symm)
      (hsd'.trans hd₁'.symm)
    · refine cost_eq_of_entries hready₁ hsr (fun b' hb' => ?_)
      rw [hsc b' hb', if_pos (hmem b' hb'), hcost₁ b' hb']
    · refine output_eq_of_rows hready₁ hsr hV (fun b' hb' i hi => ?_)
      rw [hso b' hb' i hi, if_pos (hmem b' hb'), hout₁ b' hb' i hi]

/-! ## The shape validator -/

/-- A shape of rank 2 lists exactly two extents. -/
theorem rank_two (s : Shape) (h : s.dimension = 2) : ∃ a b, s = ⟨[a, b]⟩ := by
  obtain ⟨dims⟩ := s
  match dims, h with
  | [a, b], _ => exact ⟨a, b, rfl⟩

/-- Whenever one of the six conditions is violated, `init` returns `false` and
leaves the state as it was. -/
theorem init_of_violation (DeviceUsed : DeviceType) (DataType : ElemKind)
    (accepts : TensorNd → Bool) (op : SoftmaxLogLoss α) (h : ¬ ShapeConditions op) :
    init DeviceUsed DataType accepts op = .ok (false, op) := by
  obtain ⟨i, l, c, o, dI, dO⟩ := op
  cases i <;> cases l <;> cases c <;> cases o <;> try rfl
  rename_i input label cost output
  obtain ⟨si, xi⟩ := input
  obtain ⟨so, xo⟩ := output
  obtain ⟨sl, xl⟩ := label
  obtain ⟨sc, xc⟩ := cost
  simp only [ShapeConditions] at h
  simp only [init, FAIL_IF]
  by_cases h1 : si = so
  swap
  · simp [h1]
  subst h1
  by_cases h2 : si.dimension = 2
  swap
  · simp [h2]
  by_cases h3 : sl.dimension = 2 ∧ sc.dimension = 2
  swap
  · have : sl.dimension ≠ 2 ∨ sc.dimension ≠ 2 := by tauto
    simp [h2, this]
  obtain ⟨a, b, rfl⟩ := rank_two _ h2
  obtain ⟨la, lb, rfl⟩ := rank_two _ h3.1
  obtain ⟨ca, cb, rfl⟩ := rank_two _ h3.2
  simp [Shape.dimension] at h
  simp [Shape.dimension, Shape.get, bind, Except.bind]
  intro e1 e2 e3 e4
  exact absurd e4 (h e1.symm e2.symm e3)

/-- When the six conditions hold, `init` passes every check: the reference
instantiation returns `true` at once, the accelerated one goes on to configure
the two descriptors. -/
theorem init_of_conditions (DeviceUsed : DeviceType) (DataType : ElemKind)
    (accepts : TensorNd → Bool) (op : SoftmaxLogLoss α) (h : ShapeConditions op) :
    ∃ input V B, op.Input = some input ∧ input.shape = ⟨[V, B]⟩ ∧
      init DeviceUsed DataType accepts op =
        match DeviceUsed with
        | .CPU_NAIVE => .ok (true, op)
        | .GPU_CUDA =>
          cudnnSetTensorNdDescriptor accepts (dataTypeOf DataType) 4
            [toInt B, toInt V, 1, 1] [toInt V, 1, 1, 1] >>= fun dIn =>
          cudnnSetTensorNdDescriptor accepts (dataTypeOf DataType) 4
            [toInt B, toInt V, 1, 1] [toInt V, 1, 1, 1] >>= fun dOut =>
          .ok (true, { op with m_inputGPUTensorDescriptor := dIn,
                               m_outputGPUTensorDescriptor := dOut }) := by
  obtain ⟨i, l, c, o, dI, dO⟩ := op
  cases i <;> cases l <;> cases c <;> cases o <;> simp only [ShapeConditions] at h
  rename_i input label cost output
  obtain ⟨si, xi⟩ := input
  obtain ⟨so, xo⟩ := output
  obtain ⟨sl, xl⟩ := label
  obtain ⟨sc, xc⟩ := cost
  obtain ⟨h1, h2, ⟨h3, h4⟩, h5, h6⟩ := h
  simp only at h1 h2 h3 h4 h5 h6
  subst h1
  obtain ⟨a, b, rfl⟩ := rank_two _ h2
  obtain ⟨la, lb, rfl⟩ := rank_two _ h3
  obtain ⟨ca, cb, rfl⟩ := rank_two _ h4
  simp at h5 h6
  obtain ⟨rfl, rfl⟩ := h5
  obtain ⟨rfl, rfl⟩ := h6
  refine ⟨_, a, b, rfl, rfl, ?_⟩
  cases DeviceUsed <;> simp [init, FAIL_IF, Shape.dimension, Shape.get, bind, Except.bind]

/-- C1: `init` returns success only if all six shape conditions hold.  For
every device, element type and state of the four (possibly absent) tensors: if
one of them is absent, or `Input.shape != Output.shape`, or the rank of `Input`,
`Label` or `Cost` is not 2, or `Label.shape[0]` or `Cost.shape[0]` is not 1, or
`Input.shape[1]` differs from `Label.shape[1]` or `Cost.shape[1]`, then `init`
returns `false`. -/
theorem init_fails_on_violation (DeviceUsed : DeviceType) (DataType : ElemKind)
    (accepts : TensorNd → Bool) (op : SoftmaxLogLoss α) (h : ¬ ShapeConditions op) :
    ∃ op', init DeviceUsed DataType accepts op = .ok (false, op') :=
  ⟨op, init_of_violation DeviceUsed DataType accepts op h⟩

/-- C8: failure of `init` is atomic.  Whenever `init` returns `false`, the
state after the call (the tensors and both descriptors) is the state before
it; and no descriptor is configured before all shape checks have passed: any
outcome other than `false` with the state untouched, in particular any run that
reaches `cudnnSetTensorNdDescriptor`, has passed all six checks. -/
theorem init_failure_atomic (DeviceUsed : DeviceType) (DataType : ElemKind)
    (accepts : TensorNd → Bool) (op : SoftmaxLogLoss α) :
    (∀ op', init DeviceUsed DataType accepts op = .ok (false, op') → op' = op) ∧
    (init DeviceUsed DataType accepts op ≠ .ok (false, op) → ShapeConditions op) := by
  constructor
  · intro op' h
    by_cases hc : ShapeConditions op
    · exfalso
      obtain ⟨input, V, B, -, -, e⟩ := init_of_conditions DeviceUsed DataType accepts op hc
      rw [e] at h
      cases DeviceUsed
      · simp at h
      · simp only [cudnnSetTensorNdDescriptor, bind, Except.bind] at h
        split at h <;> simp at h
    · rw [init_of_violation DeviceUsed DataType accepts op hc] at h
      simp at h
      exact h.symm
  · intro h
    by_contra hc
    exact h (init_of_violation DeviceUsed DataType accepts op hc)

/-! ## The scans of one batch element -/

/-- The tensors of a valid input, with their shapes, sizes and entries. -/
theorem ready_holds {β : Type} [OfNat β 0] {op : SoftmaxLogLoss β} {V B : Nat}
    (h : Ready op V B) :
    ∃ input label cost output,
      op.Input = some input ∧ op.Label = some label ∧
      op.Cost = some cost ∧ op.Output = some output ∧
      input.Holds ⟨[V, B]⟩ (V * B) op.inputAt ∧ label.Holds ⟨[1, B]⟩ B op.labelAt ∧
      cost.Holds ⟨[1, B]⟩ B op.costAt ∧ output.Holds ⟨[V, B]⟩ (V * B) op.outputAt := by
  obtain ⟨input, label, cost, output, hI, hL, hC, hO, hsi, hsl, hsc, hso, hli, hll, hlc, hlo,
    -⟩ := h
  exact ⟨input, label, cost, output, hI, hL, hC, hO,
    ⟨hsi, by simp [hli, hsi, Shape.size], fun k _ => by simp [inputAt, hI]⟩,
    ⟨hsl, by simp [hll, hsl, Shape.size], fun k _ => by simp [labelAt, hL]⟩,
    ⟨hsc, by simp [hlc, hsc, Shape.size], fun k _ => by simp [costAt, hC]⟩,
    ⟨hso, by simp [hlo, hso, Shape.size], fun k _ => by simp [outputAt, hO]⟩⟩

/-- The count of a valid input fits the `unsigned int` index. -/
theorem ready_count {β : Type} {op : SoftmaxLogLoss β} {V B : Nat} (h : Ready op V B) :
    V * B < 2 ^ 32 := by
  obtain ⟨_, _, _, _, -, -, -, -, -, -, -, -, -, -, -, -, hN⟩ := h
  exact hN

/-- Lines 136-144 on a valid input: the read of `Input[b * V]` and the first
scan end without fault with `maximum` the running maximum of the row. -/
theorem firstScan_eq (op : SoftmaxLogLoss ℝ) (V B : Nat) (h : Ready op V B) (hV : 1 ≤ V)
    (b : Nat) (hb : b < B) (input : Tensor ℝ) (hI : op.Input = some input) :
    (input.read (u32 (b * V)) >>= fun maximum0 =>
      forLoop V (maxStep input b V) 1 maximum0) = .ok (rowMax op V b) := by
  obtain ⟨input', -, -, -, hI', -, -, -, hin, -, -, -⟩ := ready_holds h
  have hN := ready_count h
  rw [hI] at hI'
  cases hI'
  obtain ⟨e1, e2⟩ := flat_index hb hV hN
  simp only [Nat.add_zero] at e1 e2
  simp only [e1, holds_read hin e2, bind, Except.bind]
  exact maxScan_eq hin hb hV hN

/-- C15: the first scan of the reference `evaluate` computes the row maximum.
On a valid input with `V ≥ 1`, for every batch element `b`, lines 136-144 end
without fault and the value of `maximum` after the loop is at least
`Input[b * V + i]` for every `i < V` and equals `Input[b * V + k]` for some
`k < V`. -/
theorem first_scan_row_maximum (op : SoftmaxLogLoss ℝ) (V B : Nat) (h : Ready op V B)
    (hV : 1 ≤ V) (b : Nat) (hb : b < B) :
    ∃ input maximum, op.Input = some input ∧
      (input.read (u32 (b * V)) >>= fun maximum0 =>
        forLoop V (maxStep input b V) 1 maximum0) = .ok maximum ∧
      (∀ i, i < V → op.inputAt (b * V + i) ≤ maximum) ∧
      ∃ k, k < V ∧ maximum = op.inputAt (b * V + k) := by
  obtain ⟨input, -, -, -, hI, -, -, -, -, -, -, -⟩ := ready_holds h
  obtain ⟨⟨k, hk, hmem⟩, hub⟩ := rowMax_isGreatest op V b hV
  exact ⟨input, rowMax op V b, hI, firstScan_eq op V B h hV b hb input hI,
    fun i hi => hub ⟨i, hi, rfl⟩, k, hk, hmem⟩

/-- No argument of `exp` is positive, and the argument of a maximal class is
zero. -/
theorem rowArg_nonpos (op : SoftmaxLogLoss ℝ) (V b : Nat) (hV : 1 ≤ V) :
    (∀ i, i < V → op.inputAt (b * V + i) - rowMax op V b ≤ 0) ∧
      ∃ i, i < V ∧ op.inputAt (b * V + i) - rowMax op V b = 0 := by
  obtain ⟨⟨k, hk, hmem⟩, hub⟩ := rowMax_isGreatest op V b hV
  exact ⟨fun i hi => sub_nonpos.mpr (hub ⟨i, hi, rfl⟩), k, hk, by rw [hmem, sub_self]⟩

/-- An exponential that underflows below a threshold `t ≤ 0` is still 1 at 0
and lies in `[0, 1]` on arguments that are not positive. -/
theorem underflowing_range (t : ℝ) (ht : t ≤ 0) :
    underflowing Real.exp t 0 = 1 ∧
      ∀ x, x ≤ 0 → 0 ≤ underflowing Real.exp t x ∧ underflowing Real.exp t x ≤ 1 := by
  refine ⟨by rw [underflowing, if_neg (not_lt.mpr ht), Real.exp_zero], fun x hx => ?_⟩
  unfold underflowing
  split
  · exact ⟨le_refl 0, zero_le_one⟩
  · exact ⟨(Real.exp_pos x).le, Real.exp_le_one_iff.mpr hx⟩

/-- Every stored exponential lies in `[0, 1]`, whatever `exp` is, as long as it
maps arguments that are not positive into `[0, 1]`. -/
theorem rowExp_range (exp : ℝ → ℝ) (h1 : ∀ x, x ≤ 0 → 0 ≤ exp x ∧ exp x ≤ 1)
    (op : SoftmaxLogLoss ℝ) (V b : Nat) (hV : 1 ≤ V) (i : Nat) (hi : i < V) :
    0 ≤ rowExp exp op V b i ∧ rowExp exp op V b i ≤ 1 :=
  h1 _ ((rowArg_nonpos op V b hV).1 i hi)

/-- A stored exponential is at most `expSum`. -/
theorem rowExp_le_rowSum (exp : ℝ → ℝ) (h1 : ∀ x, x ≤ 0 → 0 ≤ exp x ∧ exp x ≤ 1)
    (op : SoftmaxLogLoss ℝ) (V b : Nat) (hV : 1 ≤ V) (i : Nat) (hi : i < V) :
    rowExp exp op V b i ≤ rowSum exp op V b := by
  rw [rowSum, scanSum_eq_sum]
  exact Finset.single_le_sum (f := rowExp exp op V b)
    (fun j hj => (rowExp_range exp h1 op V b hV j (Finset.mem_range.mp hj)).1)
    (Finset.mem_range.mpr hi)

/-- `expSum` lies between 1 and the number of classes. -/
theorem rowSum_bounds (exp : ℝ → ℝ) (h0 : exp 0 = 1)
    (h1 : ∀ x, x ≤ 0 → 0 ≤ exp x ∧ exp x ≤ 1)
    (op : SoftmaxLogLoss ℝ) (V b : Nat) (hV : 1 ≤ V) :
    1 ≤ rowSum exp op V b ∧ rowSum exp op V b ≤ V := by
  constructor
  · obtain ⟨k, hk, hz⟩ := (rowArg_nonpos op V b hV).2
    have e1 : rowExp exp op V b k = 1 := by rw [rowExp, hz, h0]
    exact e1 ▸ rowExp_le_rowSum exp h1 op V b hV k hk
  · rw [rowSum, scanSum_eq_sum]
    calc ∑ j in Finset.range V, rowExp exp op V b j
        ≤ ∑ _j in Finset.range V, (1 : ℝ) :=
          Finset.sum_le_sum (fun j hj =>
            (rowExp_range exp h1 op V b hV j (Finset.mem_range.mp hj)).2)
      _ = V := by simp

/-- Lines 146-164 on a valid input, after the first scan: the second scan ends
without fault with `expSum` the sum of the row's exponentials, and it has stored
`exp (Input[b * V + i] - maximum)` at every index of the row. -/
theorem secondScan_eq (exp : ℝ → ℝ) (op : SoftmaxLogLoss ℝ) (V B : Nat) (h : Ready op V B)
    (b : Nat) (hb : b < B) :
    ∃ input cost output cost' output',
      op.Input = some input ∧ op.Cost = some cost ∧ op.Output = some output ∧
      forLoop V (expStep exp input (rowMax op V b) (op.labelAt b) b V) 0 (0, cost, output) =
        .ok (rowSum exp op V b, cost', output') ∧
      ∀ i, i < V → output'.elem (b * V + i) = rowExp exp op V b i := by
  obtain ⟨input, label, cost, output, hI, -, hC, hO, hin, -, hc, ho⟩ := ready_holds h
  have hN := ready_count h
  obtain ⟨cost', output', hrun, -, ho'⟩ :=
    expScan_eq exp (rowMax op V b) (op.labelAt b) hin hc ho hb hN
  have hS : scanSum (fun j => exp (op.inputAt (b * V + j) - rowMax op V b)) V =
      rowSum exp op V b := rfl
  rw [hS] at hrun
  refine ⟨input, cost, output, cost', output', hI, hC, hO, hrun, fun i hi => ?_⟩
  obtain ⟨-, e2⟩ := flat_index hb hi hN
  have := ho'.2.2 (b * V + i) e2
  have hin' : b * V ≤ b * V + i ∧ b * V + i < b * V + V := by omega
  simpa only [if_pos hin', Nat.add_sub_cancel_left] using this

/-- The maximum of both rows of `underflowScenario` is 1000. -/
theorem underflow_rowMax (b : Nat) (hb : b < 2) : rowMax underflowScenario 3 b = 1000 := by
  interval_cases b <;>
    · simp [rowMax, scanMax, inputAt, underflowScenario, ofData, Tensor.elem]
      norm_num

/-- With an exponential that underflows below -746, the exponentials of a row
of `underflowScenario` are 1, 0 and 0, and their sum is 1. -/
theorem underflow_scans (b : Nat) (hb : b < 2) :
    rowExp (underflowing Real.exp (-746)) underflowScenario 3 b 0 = 1 ∧
      rowExp (underflowing Real.exp (-746)) underflowScenario 3 b 1 = 0 ∧
      rowExp (underflowing Real.exp (-746)) underflowScenario 3 b 2 = 0 ∧
      rowSum (underflowing Real.exp (-746)) underflowScenario 3 b = 1 := by
  have hmax := underflow_rowMax b hb
  have e0 : rowExp (underflowing Real.exp (-746)) underflowScenario 3 b 0 = 1 := by
    rw [rowExp, hmax]
    interval_cases b <;>
      · simp [underflowing, inputAt, underflowScenario, ofData, Tensor.elem]
  have e1 : rowExp (underflowing Real.exp (-746)) underflowScenario 3 b 1 = 0 := by
    rw [rowExp, hmax]
    interval_cases b <;>
      · simp [underflowing, inputAt, underflowScenario, ofData, Tensor.elem]
        norm_num
  have e2 : rowExp (underflowing Real.exp (-746)) underflowScenario 3 b 2 = 0 := by
    rw [rowExp, hmax]
    interval_cases b <;>
      · simp [underflowing, inputAt, underflowScenario, ofData, Tensor.elem]
        norm_num
  refine ⟨e0, e1, e2, ?_⟩
  rw [rowSum, scanSum_eq_sum]
  simp only [Finset.sum_range_succ, Finset.sum_range_zero, e0, e1, e2]
  norm_num

/-- C11, as the code has it: under the caller's guarantee `V ≥ 1` the divisor
of the reference `evaluate` is never zero and no argument of `exp` is positive.
Here `exp` is any function with `exp 0 = 1` and `0 ≤ exp x ≤ 1` for `x ≤ 0`, as
are the real exponential and an exponential that underflows.  On a valid input,
for every batch element `b`, the first two scans end without fault;
`Input[b * V + i] - maximum ≤ 0` for every class `i`, with equality for at least
one; every exponential the second scan stores lies in `[0, 1]`, and in `(0, 1]`
when `exp` is positive everywhere, as over the exact reals; and
`1 ≤ expSum ≤ V`, so `expSum` is not zero. -/
theorem scans_well_defined (exp : ℝ → ℝ) (h0 : exp 0 = 1)
    (h1 : ∀ x, x ≤ 0 → 0 ≤ exp x ∧ exp x ≤ 1)
    (op : SoftmaxLogLoss ℝ) (V B : Nat) (h : Ready op V B)
    (hV : 1 ≤ V) (b : Nat) (hb : b < B) :
    ∃ input cost output maximum expSum cost' output',
      op.Input = some input ∧ op.Cost = some cost ∧ op.Output = some output ∧
      (input.read (u32 (b * V)) >>= fun maximum0 =>
        forLoop V (maxStep input b V) 1 maximum0) = .ok maximum ∧
      forLoop V (expStep exp input maximum (op.labelAt b) b V) 0 (0, cost, output) =
        .ok (expSum, cost', output') ∧
      (∀ i, i < V → op.inputAt (b * V + i) - maximum ≤ 0) ∧
      (∃ i, i < V ∧ op.inputAt (b * V + i) - maximum = 0) ∧
      (∀ i, i < V →
        output'.elem (b * V + i) = exp (op.inputAt (b * V + i) - maximum) ∧
        0 ≤ output'.elem (b * V + i) ∧ output'.elem (b * V + i) ≤ 1 ∧
        ((∀ x, 0 < exp x) → 0 < output'.elem (b * V + i))) ∧
      1 ≤ expSum ∧ expSum ≤ V ∧ expSum ≠ 0 := by
  obtain ⟨input, cost, output, cost', output', hI, hC, hO, hrun, hval⟩ :=
    secondScan_eq exp op V B h b hb
  have hb1 := rowSum_bounds exp h0 h1 op V b hV
  refine ⟨input, cost, output, rowMax op V b, rowSum exp op V b, cost', output', hI, hC, hO,
    firstScan_eq op V B h hV b hb input hI, hrun, (rowArg_nonpos op V b hV).1,
    (rowArg_nonpos op V b hV).2, ?_, hb1.1, hb1.2, by linarith [hb1.1]⟩
  intro i hi
  have hbd := rowExp_range exp h1 op V b hV i hi
  rw [hval i hi]
  exact ⟨rfl, hbd.1, hbd.2, fun hpos => hpos _⟩

/-- C11, as stated, fails for a floating-point `DataType`.  With `V = 3`, the
row `Input = [1000, 0, -1000]` and an `exp` that underflows below -746, the
scans of batch element 0 end without fault with `maximum = 1000`, the argument
of class 1 is `-1000`, and the exponential stored for class 1 is exactly 0,
which is not in `(0, 1]`. -/
theorem stored_exponential_zero :
    ∃ input cost output maximum expSum cost' output',
      underflowScenario.Input = some input ∧ underflowScenario.Cost = some cost ∧
      underflowScenario.Output = some output ∧
      (input.read (u32 (0 * 3)) >>= fun maximum0 =>
        forLoop 3 (maxStep input 0 3) 1 maximum0) = .ok maximum ∧
      forLoop 3 (expStep (underflowing Real.exp (-746)) input maximum
        (underflowScenario.labelAt 0) 0 3) 0 (0, cost, output) = .ok (expSum, cost', output') ∧
      underflowScenario.inputAt (0 * 3 + 1) - maximum = -1000 ∧
      output'.elem (0 * 3 + 1) = 0 ∧ ¬ 0 < output'.elem (0 * 3 + 1) := by
  have hready : Ready underflowScenario 3 2 :=
    ready_ofData 3 2 _ _ _ _ rfl rfl rfl rfl (by norm_num)
  obtain ⟨input, cost, output, cost', output', hI, hC, hO, hrun, hval⟩ :=
    secondScan_eq (underflowing Real.exp (-746)) underflowScenario 3 2 hready 0 (by norm_num)
  have e1 : output'.elem (0 * 3 + 1) = 0 := by
    rw [hval 1 (by norm_num)]
    exact (underflow_scans 0 (by norm_num)).2.1
  refine ⟨input, cost, output, rowMax underflowScenario 3 0, _, cost', output', hI, hC, hO,
    firstScan_eq underflowScenario 3 2 hready (by norm_num) 0 (by norm_num) input hI, hrun,
    ?_, e1, by rw [e1]; exact lt_irrefl 0⟩
  rw [underflow_rowMax 0 (by norm_num)]
  simp [inputAt, underflowScenario, ofData, Tensor.elem]

/-! ## Range of the results -/

/-- With more than one class a stored exponential is strictly below `expSum`. -/
theorem rowExp_lt_rowSum (op : SoftmaxLogLoss ℝ) (V b : Nat) (hV : 2 ≤ V) (l : Nat)
    (hl : l < V) : rowExp Real.exp op V b l < rowSum Real.exp op V b := by
  obtain ⟨j, hj, hne⟩ : ∃ j, j < V ∧ l ≠ j := by
    by_cases h0 : l = 0
    · exact ⟨1, by omega, by omega⟩
    · exact ⟨0, by omega, h0⟩
  have hsub : ({l, j} : Finset Nat) ⊆ Finset.range V := by
    intro x hx
    rcases Finset.mem_insert.mp hx with rfl | hx
    · exact Finset.mem_range.mpr hl
    · rw [Finset.mem_singleton.mp hx]
      exact Finset.mem_range.mpr hj
  have hle := Finset.sum_le_sum_of_subset_of_nonneg (f := rowExp Real.exp op V b) hsub
    (fun i _ _ => (Real.exp_pos _).le)
  rw [Finset.sum_pair hne] at hle
  rw [rowSum, scanSum_eq_sum]
  have hpos : 0 < rowExp Real.exp op V b j := Real.exp_pos _
  linarith

/-- With one class `expSum` is the one stored exponential, which is 1. -/
theorem rowSum_one_class (exp : ℝ → ℝ) (h0 : exp 0 = 1) (op : SoftmaxLogLoss ℝ) (b : Nat) :
    rowExp exp op 1 b 0 = 1 ∧ rowSum exp op 1 b = 1 := by
  have e : rowExp exp op 1 b 0 = 1 := by
    simp [rowExp, rowMax, scanMax, h0]
  refine ⟨e, ?_⟩
  rw [rowSum, scanSum_eq_sum]
  simp [e]

/-- C19, as the code has it: the loss is non-negative.  On a valid input with
`V ≥ 1`, for every batch element `b` with `Label[b] < V`, two things hold after
the reference `evaluate`.  For any `exp` with `exp 0 = 1` and `0 ≤ exp x ≤ 1`
for `x ≤ 0`, as are the real exponential and an exponential that underflows:
`0 ≤ Output[b * V + i] ≤ 1` for every `i < V`, `Cost[b] ≥ 0` whenever
`Output[b * V + Label[b]]`, the argument of the logarithm, is positive, and
`Cost[b] = 0` when `V = 1`.  Over the exact reals, with the real exponential:
`0 < Output[b * V + i] ≤ 1` for every `i < V` and `Cost[b] ≥ 0`, with
`Cost[b] = 0` exactly when `V = 1`. -/
theorem evaluate_loss_nonneg (exp : ℝ → ℝ) (h0 : exp 0 = 1)
    (h1 : ∀ x, x ≤ 0 → 0 ≤ exp x ∧ exp x ≤ 1)
    (op : SoftmaxLogLoss ℝ) (V B : Nat) (h : Ready op V B) (hV : 1 ≤ V) :
    (∃ op', evaluate exp Real.log op = .ok op' ∧ Ready op' V B ∧
      ∀ b, b < B → op.labelAt b < V →
        (∀ i, i < V → 0 ≤ op'.outputAt (b * V + i) ∧ op'.outputAt (b * V + i) ≤ 1) ∧
        (0 < op'.outputAt (b * V + op.labelAt b) → 0 ≤ op'.costAt b) ∧
        (V = 1 → op'.costAt b = 0)) ∧
    (∃ op', evaluate Real.exp Real.log op = .ok op' ∧ Ready op' V B ∧
      ∀ b, b < B → op.labelAt b < V →
        (∀ i, i < V → 0 < op'.outputAt (b * V + i) ∧ op'.outputAt (b * V + i) ≤ 1) ∧
        0 ≤ op'.costAt b ∧ (op'.costAt b = 0 ↔ V = 1)) := by
  constructor
  · obtain ⟨op', hrun, hready, -, -, -, -, hout, hcost⟩ := evaluate_eq exp Real.log op V B h hV
    refine ⟨op', hrun, hready, fun b hb hl => ?_⟩
    have hSpos : 0 < rowSum exp op V b := by linarith [(rowSum_bounds exp h0 h1 op V b hV).1]
    have hq : ∀ i, i < V → 0 ≤ rowExp exp op V b i / rowSum exp op V b ∧
        rowExp exp op V b i / rowSum exp op V b ≤ 1 := fun i hi =>
      ⟨div_nonneg (rowExp_range exp h1 op V b hV i hi).1 hSpos.le,
        (div_le_one hSpos).mpr (rowExp_le_rowSum exp h1 op V b hV i hi)⟩
    refine ⟨fun i hi => by rw [hout b hb i hi]; exact hq i hi, fun hpos => ?_, fun hV1 => ?_⟩
    · rw [hout b hb _ hl] at hpos
      rw [hcost b hb, if_pos hl]
      exact neg_nonneg.mpr (Real.log_nonpos hpos.le (hq _ hl).2)
    · subst hV1
      have hl0 : op.labelAt b = 0 := by omega
      obtain ⟨e, eS⟩ := rowSum_one_class exp h0 op b
      rw [hcost b hb, if_pos hl, hl0, e, eS, div_one, Real.log_one, neg_zero]
  · obtain ⟨op', hrun, hready, -, -, -, -, hout, hcost⟩ :=
      evaluate_eq Real.exp Real.log op V B h hV
    refine ⟨op', hrun, hready, fun b hb hl => ?_⟩
    have hSpos := rowSum_pos op V b hV
    have hle : ∀ x : ℝ, x ≤ 0 → 0 ≤ Real.exp x ∧ Real.exp x ≤ 1 := fun x hx =>
      ⟨(Real.exp_pos x).le, Real.exp_le_one_iff.mpr hx⟩
    have hq : ∀ i, i < V → 0 < rowExp Real.exp op V b i / rowSum Real.exp op V b ∧
        rowExp Real.exp op V b i / rowSum Real.exp op V b ≤ 1 := fun i hi =>
      ⟨div_pos (Real.exp_pos _) hSpos,
        (div_le_one hSpos).mpr (rowExp_le_rowSum Real.exp hle op V b hV i hi)⟩
    refine ⟨fun i hi => by rw [hout b hb i hi]; exact hq i hi, ?_, ?_⟩
    · rw [hcost b hb, if_pos hl]
      exact neg_nonneg.mpr (Real.log_nonpos (hq _ hl).1.le (hq _ hl).2)
    · rw [hcost b hb, if_pos hl, neg_eq_zero]
      constructor
      · intro hlog
        by_contra hne
        have hlt := rowExp_lt_rowSum op V b (by omega) _ hl
        rcases Real.log_eq_zero.mp hlog with e0 | e1 | e2
        · exact absurd e0 (hq _ hl).1.ne'
        · have := (div_eq_one_iff_eq hSpos.ne').mp e1
          linarith
        · have := (hq _ hl).1
          linarith
      · intro hV1
        subst hV1
        have hl0 : op.labelAt b = 0 := by omega
        obtain ⟨e, eS⟩ := rowSum_one_class Real.exp Real.exp_zero op b
        rw [hl0, e, eS, div_one, Real.log_one]

/-- C19, as stated, fails for a floating-point `DataType`.  On the batch with
`V = 3`, rows `[1000, 0, -1000]` and labels 0 and 1, both in range, with an
`exp` that underflows below -746, the reference `evaluate` ends without fault
with `Output = [1, 0, 0]` in each row: `Output[1]` is 0, not positive;
`Cost[0]` is 0 although `V = 3`; and for batch element 1 the entry
`Output[1 * 3 + Label[1]]` is 0, so the logarithm of line 173 is taken at 0. -/
theorem loss_zero_with_three_classes :
    ∃ op', evaluate (underflowing Real.exp (-746)) Real.log underflowScenario = .ok op' ∧
      Ready underflowScenario 3 2 ∧
      underflowScenario.labelAt 0 < 3 ∧ underflowScenario.labelAt 1 < 3 ∧
      op'.outputAt (0 * 3 + 0) = 1 ∧ op'.outputAt (0 * 3 + 1) = 0 ∧
      op'.outputAt (0 * 3 + 2) = 0 ∧ ¬ 0 < op'.outputAt (0 * 3 + 1) ∧
      op'.costAt 0 = 0 ∧ ¬ (op'.costAt 0 = 0 ↔ 3 = 1) ∧
      op'.outputAt (1 * 3 + underflowScenario.labelAt 1) = 0 := by
  have hready : Ready underflowScenario 3 2 :=
    ready_ofData 3 2 _ _ _ _ rfl rfl rfl rfl (by norm_num)
  obtain ⟨op', hrun, -, -, -, -, -, hout, hcost⟩ :=
    evaluate_eq (underflowing Real.exp (-746)) Real.log underflowScenario 3 2 hready
      (by norm_num)
  obtain ⟨a0, a1, a2, aS⟩ := underflow_scans 0 (by norm_num)
  obtain ⟨-, b1, -, bS⟩ := underflow_scans 1 (by norm_num)
  have hl0 : underflowScenario.labelAt 0 = 0 := by
    simp [labelAt, underflowScenario, ofData, Tensor.elem]
  have hl1 : underflowScenario.labelAt 1 = 1 := by
    simp [labelAt, underflowScenario, ofData, Tensor.elem]
  have o0 : op'.outputAt (0 * 3 + 0) = 1 := by
    rw [hout 0 (by norm_num) 0 (by norm_num), a0, aS, div_one]
  have o1 : op'.outputAt (0 * 3 + 1) = 0 := by
    rw [hout 0 (by norm_num) 1 (by norm_num), a1, aS, div_one]
  have o2 : op'.outputAt (0 * 3 + 2) = 0 := by
    rw [hout 0 (by norm_num) 2 (by norm_num), a2, aS, div_one]
  have c0 : op'.costAt 0 = 0 := by
    rw [hcost 0 (by norm_num), hl0, if_pos (by norm_num), a0, aS, div_one, Real.log_one,
      neg_zero]
  refine ⟨op', hrun, hready, by rw [hl0]; norm_num, by rw [hl1]; norm_num, o0, o1, o2,
    by rw [o1]; exact lt_irrefl 0, c0, fun hiff => ?_, ?_⟩
  · have := hiff.mp c0
    norm_num at this
  · rw [hl1, hout 1 (by norm_num) 1 (by norm_num), b1, bS, div_one]

/-! ## Uniform logits -/

/-- The running maximum of equal elements is their common value. -/
theorem scanMax_const (f : Nat → ℝ) (c : ℝ) (n : Nat) (h : ∀ j, j ≤ n → f j = c) :
    scanMax f n = c := by
  induction n with
  | zero => exact h 0 (le_refl 0)
  | succ n ih =>
    rw [scanMax, ih (fun j hj => h j (by omega)), h (n + 1) (le_refl _), if_neg (lt_irrefl c)]

/-- A row of equal logits: `Output` is `1 / V` in every class and the cost of
a label in range is `log V`. -/
theorem uniform_row (op : SoftmaxLogLoss ℝ) (V B : Nat) (h : Ready op V B) (hV : 1 ≤ V) :
    ∃ op', evaluate Real.exp Real.log op = .ok op' ∧ Ready op' V B ∧
      ∀ b, b < B → (∀ i, i < V → op.inputAt (b * V + i) = op.inputAt (b * V)) →
        op.labelAt b < V →
        (∀ i, i < V → op'.outputAt (b * V + i) = 1 / V) ∧ op'.costAt b = Real.log V := by
  obtain ⟨op', hrun, hready, -, -, -, -, hout, hcost⟩ :=
    evaluate_eq Real.exp Real.log op V B h hV
  refine ⟨op', hrun, hready, fun b hb huni hl => ?_⟩
  have hmax : rowMax op V b = op.inputAt (b * V) :=
    scanMax_const _ _ _ (fun j hj => huni j (by omega))
  have hexp : ∀ i, i < V → rowExp Real.exp op V b i = 1 := fun i hi => by
    rw [rowExp, hmax, huni i hi, sub_self, Real.exp_zero]
  have hsum : rowSum Real.exp op V b = V := by
    rw [rowSum, scanSum_eq_sum,
      Finset.sum_congr rfl (fun i hi => hexp i (Finset.mem_range.mp hi))]
    simp
  refine ⟨fun i hi => by rw [hout b hb i hi, hexp i hi, hsum], ?_⟩
  rw [hcost b hb, if_pos hl, hexp _ hl, hsum, one_div, Real.log_inv, neg_neg]

/-- C12: uniform logits give the uniform distribution.  On a valid input with
`V ≥ 1`, for every batch element `b` whose `V` logits are all equal and whose
label is in range, the reference `evaluate` writes `Output[b * V + i] = 1 / V`
for all `i < V` and `Cost[b] = log V`.  In the spec's scenario (`V = 2`,
`B = 2`, all-zero `Input`, `Label = [0, 1]`) every `Output` entry is 0.5 and
both `Cost` entries are `log 2`, which is within 0.0001 of 0.6931. -/
theorem uniform_logits :
    (∀ (op : SoftmaxLogLoss ℝ) (V B : Nat), Ready op V B → 1 ≤ V →
      ∃ op', evaluate Real.exp Real.log op = .ok op' ∧ Ready op' V B ∧
        ∀ b, b < B → (∀ i, i < V → op.inputAt (b * V + i) = op.inputAt (b * V)) →
          op.labelAt b < V →
          (∀ i, i < V → op'.outputAt (b * V + i) = 1 / V) ∧ op'.costAt b = Real.log V) ∧
    (∃ op', evaluate Real.exp Real.log uniformScenario = .ok op' ∧ Ready op' 2 2 ∧
      (∀ k, k < 4 → op'.outputAt k = 0.5) ∧
      (∀ b, b < 2 → op'.costAt b = Real.log 2 ∧ |op'.costAt b - 0.6931| < 0.0001)) := by
  refine ⟨uniform_row, ?_⟩
  obtain ⟨op', hrun, hready, hrow⟩ := uniform_row uniformScenario 2 2
    (ready_ofData 2 2 _ _ _ _ rfl rfl rfl rfl (by norm_num)) (by norm_num)
  have hrows : ∀ b, b < 2 →
      (∀ i, i < 2 → op'.outputAt (b * 2 + i) = 1 / ((2 : Nat) : ℝ)) ∧
        op'.costAt b = Real.log ((2 : Nat) : ℝ) := by
    intro b hb
    refine hrow b hb ?_ ?_
    · intro i hi
      interval_cases b <;> interval_cases i <;>
        simp [inputAt, uniformScenario, ofData, Tensor.elem]
    · interval_cases b <;> simp [labelAt, uniformScenario, ofData, Tensor.elem]
  refine ⟨op', hrun, hready, ?_, ?_⟩
  · intro k hk
    have e : k = k / 2 * 2 + k % 2 := by omega
    rw [e, (hrows (k / 2) (by omega)).1 (k % 2) (by omega)]
    norm_num
  · intro b hb
    have hc : op'.costAt b = Real.log 2 := by
      rw [(hrows b hb).2]
      norm_num
    refine ⟨hc, ?_⟩
    rw [hc, abs_lt]
    constructor
    · linarith [Real.log_two_gt_d9]
    · linarith [Real.log_two_lt_d9]

/-! ## The spec's scenario with three classes -/

/-- An upper bound of `exp 0.4075`, from the exponential series. -/
theorem exp_4075_lt : Real.exp 0.4075 < 1.50321 := by
  have h := Real.exp_bound' (x := 0.4075) (by norm_num) (by norm_num) (n := 6) (by norm_num)
  refine lt_of_le_of_lt h ?_
  simp only [Finset.sum_range_succ, Finset.sum_range_zero, Nat.factorial]
  norm_num

/-- A lower bound of `exp 0.4077`, from the exponential series. -/
theorem exp_4077_gt : 1.50322 < Real.exp 0.4077 := by
  have h := Real.sum_le_exp_of_nonneg (x := 0.4077) (by norm_num) 6
  refine lt_of_lt_of_le ?_ h
  simp only [Finset.sum_range_succ, Finset.sum_range_zero, Nat.factorial]
  norm_num

/-- The scans on the scenario: `maximum = 3`, the stored exponentials are
`exp (-2)`, `exp (-1)`, `1`, and `expSum` is their sum. -/
theorem scenario_scans :
    rowExp Real.exp scenario 3 0 0 = Real.exp (-1) ^ 2 ∧
      rowExp Real.exp scenario 3 0 1 = Real.exp (-1) ∧
      rowExp Real.exp scenario 3 0 2 = 1 ∧
      rowSum Real.exp scenario 3 0 = Real.exp (-1) ^ 2 + Real.exp (-1) + 1 := by
  have hmax : rowMax scenario 3 0 = 3 := by
    simp [rowMax, scanMax, inputAt, scenario, ofData, Tensor.elem]
    norm_num
  have e0 : rowExp Real.exp scenario 3 0 0 = Real.exp (-1) ^ 2 := by
    rw [rowExp, hmax, ← Real.exp_nat_mul]
    simp [inputAt, scenario, ofData, Tensor.elem]
    norm_num
  have e1 : rowExp Real.exp scenario 3 0 1 = Real.exp (-1) := by
    rw [rowExp, hmax]
    simp [inputAt, scenario, ofData, Tensor.elem]
    norm_num
  have e2 : rowExp Real.exp scenario 3 0 2 = 1 := by
    rw [rowExp, hmax]
    simp [inputAt, scenario, ofData, Tensor.elem]
  refine ⟨e0, e1, e2, ?_⟩
  rw [rowSum, scanSum_eq_sum]
  simp only [Finset.sum_range_succ, Finset.sum_range_zero, e0, e1, e2]
  ring

/-- C13: on the input `V = 3`, `B = 1`, `Input = [1, 2, 3]`, `Label = [2]` the
reference `evaluate` over the reals produces `Output` entries within 0.0001 of
0.0900, 0.2447 and 0.6652, and `Cost[0]` within 0.0001 of 0.4076. -/
theorem scenario_values :
    ∃ op', evaluate Real.exp Real.log scenario = .ok op' ∧ Ready op' 3 1 ∧
      |op'.outputAt 0 - 0.0900| < 0.0001 ∧ |op'.outputAt 1 - 0.2447| < 0.0001 ∧
      |op'.outputAt 2 - 0.6652| < 0.0001 ∧ |op'.costAt 0 - 0.4076| < 0.0001 := by
  obtain ⟨op', hrun, hready, -, -, -, -, hout, hcost⟩ := evaluate_eq Real.exp Real.log scenario 3 1
    (ready_ofData 3 1 _ _ _ _ rfl rfl rfl rfl (by norm_num)) (by norm_num)
  obtain ⟨e0, e1, e2, eS⟩ := scenario_scans
  have hlo := Real.exp_neg_one_gt_d9
  have hhi := Real.exp_neg_one_lt_d9
  have hD : 0 < Real.exp (-1) ^ 2 + Real.exp (-1) + 1 := by positivity
  have o0 := hout 0 (by norm_num) 0 (by norm_num)
  have o1 := hout 0 (by norm_num) 1 (by norm_num)
  have o2 := hout 0 (by norm_num) 2 (by norm_num)
  have c0 := hcost 0 (by norm_num)
  have hlab : scenario.labelAt 0 = 2 := by simp [labelAt, scenario, ofData, Tensor.elem]
  simp only [Nat.zero_mul, Nat.zero_add] at o0 o1 o2
  rw [e0, eS] at o0
  rw [e1, eS] at o1
  rw [e2, eS] at o2
  rw [hlab, if_pos (by norm_num), e2, eS, one_div, Real.log_inv, neg_neg] at c0
  refine ⟨op', hrun, hready, ?_, ?_, ?_, ?_⟩
  · rw [o0, abs_lt]
    constructor
    · rw [lt_sub_iff_add_lt, lt_div_iff₀ hD]
      nlinarith
    · rw [sub_lt_iff_lt_add, div_lt_iff₀ hD]
      nlinarith
  · rw [o1, abs_lt]
    constructor
    · rw [lt_sub_iff_add_lt, lt_div_iff₀ hD]
      nlinarith
    · rw [sub_lt_iff_lt_add, div_lt_iff₀ hD]
      nlinarith
  · rw [o2, abs_lt]
    constructor
    · rw [lt_sub_iff_add_lt, lt_div_iff₀ hD]
      nlinarith
    · rw [sub_lt_iff_lt_add, div_lt_iff₀ hD]
      nlinarith
  · rw [c0, abs_lt]
    constructor
    · rw [lt_sub_iff_add_lt, Real.lt_log_iff_exp_lt hD]
      have h1 : Real.exp (-0.0001 + 0.4076) = Real.exp 0.4075 := by norm_num
      rw [h1]
      nlinarith [exp_4075_lt]
    · rw [sub_lt_iff_lt_add, Real.log_lt_iff_lt_exp hD]
      have h1 : Real.exp (0.0001 + 0.4076) = Real.exp 0.4077 := by norm_num
      rw [h1]
      nlinarith [exp_4077_gt]

/-! ## The validator, continued -/

/-- A `true` return of `init` means that the six conditions hold. -/
theorem conditions_of_init (DeviceUsed : DeviceType) (DataType : ElemKind)
    (accepts : TensorNd → Bool) (op op' : SoftmaxLogLoss α)
    (h : init DeviceUsed DataType accepts op = .ok (true, op')) : ShapeConditions op := by
  by_contra hc
  rw [init_of_violation DeviceUsed DataType accepts op hc] at h
  simp at h

/-- C17: the converse of the validator's contract, for the reference backend.
Whenever all four tensors are present, `Input.shape == Output.shape`, `Input`,
`Label` and `Cost` have rank 2, `Label.shape[0] == 1`, `Cost.shape[0] == 1` and
`Input.shape[1] == Label.shape[1] == Cost.shape[1]`, the `CPU_NAIVE` `init`
returns `true`; so it succeeds if and only if the six conditions hold.  In
particular it accepts shapes with `vectorSize == 0`, and its result does not
depend on the label values. -/
theorem init_reference_iff (DataType : ElemKind) (accepts : TensorNd → Bool)
    (op : SoftmaxLogLoss α) :
    (ShapeConditions op → init .CPU_NAIVE DataType accepts op = .ok (true, op)) ∧
    ((∃ op', init .CPU_NAIVE DataType accepts op = .ok (true, op')) ↔ ShapeConditions op) ∧
    (∀ (B : Nat) (input : List α) (label : List Nat) (cost output : List α),
      init .CPU_NAIVE DataType accepts (ofData 0 B input label cost output) =
        .ok (true, ofData 0 B input label cost output)) ∧
    (∀ (label : Tensor Nat) (values : List Nat), op.Label = some label →
      Prod.fst <$> init .CPU_NAIVE DataType accepts
          { op with Label := some ⟨label.shape, values⟩ } =
        Prod.fst <$> init .CPU_NAIVE DataType accepts op) := by
  have hpos : ∀ st : SoftmaxLogLoss α, ShapeConditions st →
      init .CPU_NAIVE DataType accepts st = .ok (true, st) := by
    intro st hc
    obtain ⟨_, _, _, -, -, e⟩ := init_of_conditions .CPU_NAIVE DataType accepts st hc
    exact e
  refine ⟨hpos op, ⟨fun ⟨op', h⟩ => conditions_of_init _ _ _ _ _ h, fun hc => ⟨op, hpos op hc⟩⟩,
    ?_, ?_⟩
  · intro B input label cost output
    apply hpos
    simp [ShapeConditions, ofData, Shape.dimension]
  · intro label values hL
    have hiff : ShapeConditions { op with Label := some ⟨label.shape, values⟩ } ↔
        ShapeConditions op := by
      obtain ⟨i, l, c, o, d, d'⟩ := op
      simp only at hL
      subst hL
      cases i <;> cases c <;> cases o <;> simp [ShapeConditions]
    by_cases hc : ShapeConditions op
    · rw [hpos op hc, hpos _ (hiff.mpr hc)]
      rfl
    · rw [init_of_violation _ _ _ op hc, init_of_violation _ _ _ _ (fun h => hc (hiff.mp h))]
      rfl

/-- `init` never indexes a shape past its rank, and never meets a null handle:
its only fault is a failing cuDNN call. -/
theorem init_fault (DeviceUsed : DeviceType) (DataType : ElemKind)
    (accepts : TensorNd → Bool) (op : SoftmaxLogLoss α) (e : Fault)
    (h : init DeviceUsed DataType accepts op = .error e) : e = .cudnnFailure := by
  by_cases hc : ShapeConditions op
  · obtain ⟨_, V, B, -, -, eq⟩ := init_of_conditions DeviceUsed DataType accepts op hc
    rw [eq] at h
    cases DeviceUsed
    · simp at h
    · by_cases ha : accepts ⟨dataTypeOf DataType, 4, [toInt B, toInt V, 1, 1],
          [toInt V, 1, 1, 1]⟩ = true
      · simp [cudnnSetTensorNdDescriptor, ha, bind, Except.bind] at h
      · simp [cudnnSetTensorNdDescriptor, ha, bind, Except.bind] at h
        exact h.symm
  · rw [init_of_violation DeviceUsed DataType accepts op hc] at h
    simp at h

/-- Tensors that pass the six checks and store as many elements as their
shapes say, `V * B` of them below `2 ^ 32`, make a valid input. -/
theorem ready_of_conditions (op : SoftmaxLogLoss α) (input : Tensor α) (label : Tensor Nat)
    (cost output : Tensor α) (V B : Nat) (hc : ShapeConditions op)
    (hI : op.Input = some input) (hL : op.Label = some label)
    (hC : op.Cost = some cost) (hO : op.Output = some output)
    (hV : input.shape.get 0 = .ok V) (hB : input.shape.get 1 = .ok B)
    (hli : input.data.length = input.shape.size) (hll : label.data.length = label.shape.size)
    (hlc : cost.data.length = cost.shape.size) (hlo : output.data.length = output.shape.size)
    (hN : V * B < 2 ^ 32) : Ready op V B := by
  simp only [ShapeConditions, hI, hL, hC, hO] at hc
  obtain ⟨h1, h2, ⟨h3, h4⟩, ⟨h5, h6⟩, h7, h8⟩ := hc
  obtain ⟨a, b, ha⟩ := rank_two _ h2
  obtain ⟨la, lb, hla⟩ := rank_two _ h3
  obtain ⟨ca, cb, hca⟩ := rank_two _ h4
  rw [ha] at hV hB h7 h8
  rw [hla] at h5 h7
  rw [hca] at h6 h8
  simp [Shape.get] at hV hB h5 h6 h7 h8
  subst hV hB h5 h6 h7 h8
  exact ⟨input, label, cost, output, hI, hL, hC, hO, ha, hla, hca, h1 ▸ ha, hli, hll, hlc, hlo,
    hN⟩

/-- C18: index safety.  For tensors on which `init` returns `true`, each
holding exactly as many elements as the product of its shape, with
`vectorSize = V ≥ 1` and `V * B < 2 ^ 32`: every flat index the reference
`evaluate` computes, `b * V + i` with `b < B` and `i < V`, is computed without
wrap-around and lies inside `Input` and `Output`, every `b < B` lies inside
`Label` and `Cost`, and `evaluate` ends without fault, an access outside a
buffer being a fault.  And `init` itself never indexes a shape at or past its
rank: on no state does it end in the fault `outOfRange`. -/
theorem index_safety {β : Type} [OfNat β 0] [Add β] [Sub β] [Div β] [Neg β] [LT β]
    [DecidableRel (fun a b : β => a < b)] (exp log : β → β)
    (DeviceUsed : DeviceType) (DataType : ElemKind) (accepts : TensorNd → Bool)
    (op op₁ : SoftmaxLogLoss β) (input : Tensor β) (label : Tensor Nat)
    (cost output : Tensor β) (V B : Nat)
    (hinit : init DeviceUsed DataType accepts op = .ok (true, op₁))
    (hI : op.Input = some input) (hL : op.Label = some label)
    (hC : op.Cost = some cost) (hO : op.Output = some output)
    (hV : input.shape.get 0 = .ok V) (hB : input.shape.get 1 = .ok B)
    (hli : input.data.length = input.shape.size) (hll : label.data.length = label.shape.size)
    (hlc : cost.data.length = cost.shape.size) (hlo : output.data.length = output.shape.size)
    (hV1 : 1 ≤ V) (hN : V * B < 2 ^ 32) :
    (∀ b, b < B → ∀ i, i < V →
      u32 (b * V + i) = b * V + i ∧ b * V + i < V * B ∧
      u32 (b * V + i) < input.data.length ∧ u32 (b * V + i) < output.data.length ∧
      b < label.data.length ∧ b < cost.data.length) ∧
    (∃ op', evaluate exp log op = .ok op') ∧
    (∀ (dev : DeviceType) (st : SoftmaxLogLoss β),
      init dev DataType accepts st ≠ .error .outOfRange) := by
  have hc := conditions_of_init DeviceUsed DataType accepts op op₁ hinit
  have hready := ready_of_conditions op input label cost output V B hc hI hL hC hO hV hB
    hli hll hlc hlo hN
  obtain ⟨input', label', cost', output', hI', hL', hC', hO', hin, hl, hco, ho⟩ :=
    ready_holds hready
  rw [hI] at hI'
  rw [hL] at hL'
  rw [hC] at hC'
  rw [hO] at hO'
  cases hI'
  cases hL'
  cases hC'
  cases hO'
  refine ⟨fun b hb i hi => ?_, ?_, ?_⟩
  · obtain ⟨e1, e2⟩ := flat_index hb hi hN
    exact ⟨e1, e2, by rw [e1, hin.2.1]; exact e2, by rw [e1, ho.2.1]; exact e2,
      by rw [hl.2.1]; exact hb, by rw [hco.2.1]; exact hb⟩
  · obtain ⟨op', hrun, -⟩ := evaluate_eq exp log op V B hready hV1
    exact ⟨op', hrun⟩
  · intro dev st h
    have := init_fault dev DataType accepts st _ h
    cases this

/-- An `unsigned int` that fits a signed 32-bit `int` converts to itself. -/
theorem toInt_of_lt {n : Nat} (h : n < 2 ^ 31) : toInt n = (n : Int) := by
  have h1 : n % 2 ^ 32 = n := Nat.mod_eq_of_lt (by omega)
  rw [toInt, h1, if_pos h]

/-- What a successful `init` of the accelerated backend has configured. -/
theorem init_cuda_eq (DataType : ElemKind) (accepts : TensorNd → Bool)
    (op op' : SoftmaxLogLoss α)
    (h : init .GPU_CUDA DataType accepts op = .ok (true, op')) :
    ∃ input V B, op.Input = some input ∧ input.shape = ⟨[V, B]⟩ ∧ ShapeConditions op ∧
      op' = { op with
        m_inputGPUTensorDescriptor :=
          some ⟨dataTypeOf DataType, 4, [toInt B, toInt V, 1, 1], [toInt V, 1, 1, 1]⟩
        m_outputGPUTensorDescriptor :=
          some ⟨dataTypeOf DataType, 4, [toInt B, toInt V, 1, 1], [toInt V, 1, 1, 1]⟩ } := by
  have hc := conditions_of_init .GPU_CUDA DataType accepts op op' h
  obtain ⟨input, V, B, hI, hs, e⟩ := init_of_conditions .GPU_CUDA DataType accepts op hc
  rw [e] at h
  refine ⟨input, V, B, hI, hs, hc, ?_⟩
  by_cases ha : accepts ⟨dataTypeOf DataType, 4, [toInt B, toInt V, 1, 1],
      [toInt V, 1, 1, 1]⟩ = true
  · simp [cudnnSetTensorNdDescriptor, ha, bind, Except.bind] at h
    exact h.symm
  · simp [cudnnSetTensorNdDescriptor, ha, bind, Except.bind] at h

/-- C16: on a successful `init` of the accelerated backend both descriptors
are configured with the 4 dimensions `(batchSize, vectorSize, 1, 1)` and the
strides `(vectorSize, 1, 1, 1)`.  For `batchSize` and `vectorSize` that fit a
signed 32-bit `int` these strides are dense, each the product of the
dimensions after it, and the descriptor's offset of the element
`(n = b, c = i, 0, 0)` is `b * vectorSize + i`, the flat index that the
reference `evaluate` computes for `Input[b, i]` and `Output[b, i]`. -/
theorem init_descriptors (DataType : ElemKind) (accepts : TensorNd → Bool)
    (op op' : SoftmaxLogLoss α)
    (h : init .GPU_CUDA DataType accepts op = .ok (true, op')) :
    ∃ input V B d, op.Input = some input ∧ input.shape.get 0 = .ok V ∧
      input.shape.get 1 = .ok B ∧
      op'.m_inputGPUTensorDescriptor = some d ∧ op'.m_outputGPUTensorDescriptor = some d ∧
      d.nbDims = 4 ∧ d.dimA = [toInt B, toInt V, 1, 1] ∧ d.strideA = [toInt V, 1, 1, 1] ∧
      (V < 2 ^ 31 → B < 2 ^ 31 →
        d.dimA = [(B : Int), (V : Int), 1, 1] ∧ d.strideA = [(V : Int), 1, 1, 1] ∧
        d.strideA = denseStrides d.dimA ∧
        ∀ b i : Nat, d.offset [(b : Int), (i : Int), 0, 0] = ((b * V + i : Nat) : Int) ∧
          (b < B → i < V → V * B < 2 ^ 32 →
            d.offset [(b : Int), (i : Int), 0, 0] = ((u32 (b * V + i) : Nat) : Int))) := by
  obtain ⟨input, V, B, hI, hs, -, rfl⟩ := init_cuda_eq DataType accepts op op' h
  refine ⟨input, V, B, _, hI, by simp [hs, Shape.get], by simp [hs, Shape.get], rfl, rfl, rfl,
    rfl, rfl, ?_⟩
  intro hV hB
  have eV := toInt_of_lt hV
  have eB := toInt_of_lt hB
  refine ⟨by simp only [eV, eB], by simp only [eV], by simp [eV, eB, denseStrides],
    fun b i => ?_⟩
  have hoff : TensorNd.offset ⟨dataTypeOf DataType, 4, [toInt B, toInt V, 1, 1],
      [toInt V, 1, 1, 1]⟩ [(b : Int), (i : Int), 0, 0] = ((b * V + i : Nat) : Int) := by
    simp [TensorNd.offset, eV]
  refine ⟨hoff, fun hb hi hN => ?_⟩
  rw [hoff, (flat_index hb hi hN).1]

/-! ## The accelerated backend -/

/-- The maximum that `softmaxAccurate` subtracts is the running maximum of the
first scan. -/
theorem foldl_max_eq (f : Nat → ℝ) (n : Nat) :
    ((List.range (n + 1)).map f).foldl (fun m a => if a > m then a else m) (f 0) =
      scanMax f n := by
  induction n with
  | zero =>
    have h1 : List.range (0 + 1) = [0] := rfl
    rw [h1]
    simp [scanMax]
  | succ n ih =>
    rw [List.range_succ, List.map_append, List.foldl_append, ih]
    simp [scanMax]

/-- The sum that `softmaxAccurate` divides by is the sum of the terms. -/
theorem foldr_add_eq (g : Nat → ℝ) (n : Nat) :
    ((List.range n).map g).foldr (fun a t => a + t) 0 = ∑ j in Finset.range n, g j := by
  have h : ∀ l : List ℝ, l.foldr (fun a t => a + t) 0 = l.sum := fun l => rfl
  rw [h]
  induction n with
  | zero => simp
  | succ n ih => rw [List.sum_range_succ, ih, Finset.sum_range_succ]

/-- The accurate softmax of the scores `f 0, ..., f (C - 1)`, entry by entry. -/
theorem softmaxAccurate_getD (f : Nat → ℝ) (C : Nat) (hC : 1 ≤ C) (c : Nat) (hc : c < C) :
    (softmaxAccurate Real.exp ((List.range C).map f)).getD c 0 =
      Real.exp (f c - scanMax f (C - 1)) /
        scanSum (fun j => Real.exp (f j - scanMax f (C - 1))) C := by
  obtain ⟨n, rfl⟩ : ∃ n, C = n + 1 := ⟨C - 1, by omega⟩
  have hhead : ((List.range (n + 1)).map f).headD 0 = f 0 := by
    simp [List.range_succ_eq_map]
  have hsum := foldr_add_eq (fun j => Real.exp (f j - scanMax f n)) (n + 1)
  simp only [softmaxAccurate, hhead, foldl_max_eq, List.map_map, Nat.add_sub_cancel]
  have hcomp : ((fun a => Real.exp (a - scanMax f n)) ∘ f) =
      fun j => Real.exp (f j - scanMax f n) := rfl
  rw [hcomp, hsum, scanSum_eq_sum, List.getD_eq_getElem?_getD, List.getElem?_map,
    List.getElem?_range hc]
  rfl

/-- The softmax primitive on the descriptors that `init` configures: it ends
without fault and writes into every row of `Output` the values that the
reference `evaluate` writes there. -/
theorem softmaxForward_eq (op : SoftmaxLogLoss ℝ) (V B : Nat) (hV : 1 ≤ V)
    (input output : Tensor ℝ) (dt : cudnnDataType_t)
    (hin : ∀ k, input.elem k = op.inputAt k) (hil : input.data.length = V * B)
    (hol : output.data.length = V * B) :
    ∃ y', cudnnSoftmaxForward Real.exp
        (some ⟨dt, 4, [(B : Int), (V : Int), 1, 1], [(V : Int), 1, 1, 1]⟩) input
        (some ⟨dt, 4, [(B : Int), (V : Int), 1, 1], [(V : Int), 1, 1, 1]⟩) output = .ok y' ∧
      y'.shape = output.shape ∧ y'.data.length = V * B ∧
      ∀ b, b < B → ∀ i, i < V →
        y'.elem (b * V + i) = rowExp Real.exp op V b i / rowSum Real.exp op V b := by
  have hBV : B * V = V * B := Nat.mul_comm B V
  have hdrop : output.data.drop (B * V) = [] :=
    List.drop_of_length_le (by rw [hol, hBV])
  refine ⟨{ output with data :=
      (List.range (B * V)).map (fun k =>
        (softmaxAccurate Real.exp ((List.range V).map
          (fun j => input.elem (k / V * V + j)))).getD (k % V) 0)
      ++ output.data.drop (B * V) }, ?_, rfl, ?_, ?_⟩
  · simp [cudnnSoftmaxForward, denseStrides, hil, hol, hBV]
  · simp [hdrop, hBV, hol]
  · intro b hb i hi
    have hk : b * V + i < B * V := by
      have : (b + 1) * V ≤ B * V := Nat.mul_le_mul_right V hb
      rw [Nat.add_mul, Nat.one_mul] at this
      omega
    have hdiv : (b * V + i) / V = b := row_of_index (Nat.le_add_right _ _) (by omega)
    have hmod : (b * V + i) % V = i := by
      rw [Nat.mul_comm b V, Nat.mul_add_mod, Nat.mod_eq_of_lt hi]
    simp only [Tensor.elem, hdrop, List.append_nil, List.getD_eq_getElem?_getD,
      List.getElem?_map, List.getElem?_range hk, Option.map_some', Option.getD_some, hdiv,
      hmod]
    have := softmaxAccurate_getD (fun j => op.inputAt (b * V + j)) V hV i hi
    simp only [List.getD_eq_getElem?_getD] at this
    have hf : (fun j => input.data[b * V + j]?.getD 0) = fun j => op.inputAt (b * V + j) := by
      funext j
      have := hin (b * V + j)
      simpa [Tensor.elem] using this
    rw [hf, this]
    rfl

/-- The gather kernel on a valid `Output`, `Label` and `Cost` with every label
in range: it ends without fault and writes `-log (Output[b * V + Label[b]])`
into every `Cost[b]`. -/
theorem lossKernel_eq {output cost : Tensor ℝ} {label : Tensor Nat} {sho shl shc : Shape}
    {V B : Nat} {o c : Nat → ℝ} {l : Nat → Nat}
    (ho : output.Holds sho (V * B) o) (hl : label.Holds shl B l) (hc : cost.Holds shc B c)
    (hlab : ∀ b, b < B → l b < V) (hN : V * B < 2 ^ 32) :
    ∃ cost', softmaxLogLossCUDAKernel Real.log output label cost V B = .ok cost' ∧
      cost'.Holds shc B (fun k => -Real.log (o (k * V + l k))) := by
  obtain ⟨cost', hrun, hc'⟩ := forLoop_inv B
    (fun b cost => label.read b >>= fun l =>
      output.read (u32 (b * V + l)) >>= fun p => cost.write b (-(Real.log p)))
    (fun b t => t.Holds shc B (fun k => if k < b then -Real.log (o (k * V + l k)) else c k))
    0 cost (Nat.zero_le B) (holds_congr hc (by intro k _; simp))
    (by
      intro b t _ hb ht
      obtain ⟨e1, e2⟩ := flat_index hb (hlab b hb) hN
      obtain ⟨t', hw, ht'⟩ := holds_write ht hb (-Real.log (o (b * V + l b)))
      refine ⟨t', by simp only [holds_read hl hb, e1, holds_read ho e2, hw, bind, Except.bind],
        holds_congr ht' ?_⟩
      intro k _
      by_cases hk : k = b
      · subst hk
        simp
      · have : k < b + 1 ↔ k < b := by omega
        simp only [if_neg hk, this])
  exact ⟨cost', hrun, holds_congr hc' (by intro k hk; simp only [if_pos hk])⟩

/-- C14: the accelerated `evaluate` is a drop-in replacement for the reference
`evaluate`.  On a state that a successful `init` of the accelerated backend has
left, with a valid input (`V ≥ 1`, `V` and `B` within a signed 32-bit `int`,
every label in range), the softmax primitive followed by the gather kernel
ends without fault and produces the `Output` and `Cost` tensors that the
reference `evaluate` produces; over the reals the two agree exactly. -/
theorem cuda_matches_reference (DataType : ElemKind) (accepts : TensorNd → Bool)
    (op₀ op : SoftmaxLogLoss ℝ) (V B : Nat)
    (hinit : init .GPU_CUDA DataType accepts op₀ = .ok (true, op))
    (h : Ready op V B) (hV : 1 ≤ V) (hV31 : V < 2 ^ 31) (hB31 : B < 2 ^ 31)
    (hlab : ∀ b, b < B → op.labelAt b < V) :
    ∃ ref acc, evaluate Real.exp Real.log op = .ok ref ∧
      evaluateCUDA Real.exp Real.log op = .ok acc ∧
      acc.Output = ref.Output ∧ acc.Cost = ref.Cost := by
  obtain ⟨input₀, V', B', hI₀, hs₀, -, hop⟩ := init_cuda_eq DataType accepts op₀ op hinit
  have hdI : op.m_inputGPUTensorDescriptor =
      some ⟨dataTypeOf DataType, 4, [toInt B', toInt V', 1, 1], [toInt V', 1, 1, 1]⟩ := by
    rw [hop]
  have hdO : op.m_outputGPUTensorDescriptor =
      some ⟨dataTypeOf DataType, 4, [toInt B', toInt V', 1, 1], [toInt V', 1, 1, 1]⟩ := by
    rw [hop]
  have hIeq : op.Input = op₀.Input := by rw [hop]
  obtain ⟨input, label, cost, output, hI, hL, hC, hO, hin, hl, hc, ho⟩ := ready_holds h
  have hN := ready_count h
  have hdims : V' = V ∧ B' = B := by
    rw [hIeq, hI₀] at hI
    cases hI
    have := hs₀.symm.trans hin.1
    simpa using this
  obtain ⟨rfl, rfl⟩ := hdims
  rw [toInt_of_lt hV31, toInt_of_lt hB31] at hdI hdO
  obtain ⟨y', hsm, hys, hyl, hy⟩ := softmaxForward_eq op V' B' hV input output
    (dataTypeOf DataType) (fun k => by simp [inputAt, hI]) hin.2.1 ho.2.1
  have hoy : y'.Holds ⟨[V', B']⟩ (V' * B') y'.elem := ⟨hys.trans ho.1, hyl, fun _ _ => rfl⟩
  obtain ⟨cost', hk, hc'⟩ := lossKernel_eq hoy hl hc hlab hN
  obtain ⟨ref, hrun, hready, -, -, -, -, hout, hcost⟩ :=
    evaluate_eq Real.exp Real.log op V' B' h hV
  have hracc : Ready { op with Cost := some cost', Output := some y' } V' B' := by
    obtain ⟨i, l, c, o, hI', hL', -, -, hsi, hsl, -, -, hli, hll, -, -, -⟩ := h
    exact ⟨i, l, cost', y', hI', hL', rfl, rfl, hsi, hsl, hc'.1, hoy.1, hli, hll,
      by simp [hc'.2.1, hc'.1, Shape.size], by simp [hoy.2.1, hoy.1, Shape.size], hN⟩
  refine ⟨ref, { op with Cost := some cost', Output := some y' }, hrun, ?_, ?_, ?_⟩
  · simp only [evaluateCUDA, hI, hL, hC, hO, hin.1, Shape.get, hdI, hdO, bind, Except.bind]
    simp [hsm, hk]
  · refine output_eq_of_rows hready hracc hV (fun b hb i hi => ?_)
    rw [hout b hb i hi]
    simpa [outputAt] using hy b hb i hi
  · refine cost_eq_of_entries hready hracc (fun b hb => ?_)
    rw [hcost b hb, if_pos (hlab b hb), ← hy b hb _ (hlab b hb)]
    have := hc'.2.2 b hb
    simpa [costAt] using this

/-! ## The contract on concrete states -/

/-- `init` rejects the state whose "Input" has rank 1. -/
theorem init_fails_on_violation_witness :
    ¬ ShapeConditions rankOneInput ∧
      ∃ op', init .GPU_CUDA .double (fun _ => true) rankOneInput = .ok (false, op') :=
  ⟨by decide, init_fails_on_violation .GPU_CUDA .double (fun _ => true) rankOneInput (by decide)⟩

/-- `init` returns `false` on the state with mismatched batch sizes and leaves
the configured descriptors as they were; on the batch of two it passes every
check and configures both descriptors. -/
theorem init_failure_atomic_witness :
    init .GPU_CUDA .float (fun _ => true) batchMismatch = .ok (false, batchMismatch) ∧
      batchMismatch = batchMismatch ∧
      init .GPU_CUDA .float (fun _ => true) batchOfTwo ≠ .ok (false, batchOfTwo) ∧
      ShapeConditions batchOfTwo :=
  ⟨rfl,
    (init_failure_atomic .GPU_CUDA .float (fun _ => true) batchMismatch).1 batchMismatch rfl,
    by simp [init, FAIL_IF, batchOfTwo, ofData, Shape.dimension, Shape.get, bind, Except.bind,
      cudnnSetTensorNdDescriptor],
    (init_failure_atomic .GPU_CUDA .float (fun _ => true) batchOfTwo).2
      (by simp [init, FAIL_IF, batchOfTwo, ofData, Shape.dimension, Shape.get, bind,
        Except.bind, cudnnSetTensorNdDescriptor])⟩

/-- The softmax contract on the spec's scenario `V = 3`, `B = 1`. -/
theorem evaluate_output_softmax_witness :
    Ready scenario 3 1 ∧ 1 ≤ 3 ∧
      ∃ op', evaluate Real.exp Real.log scenario = .ok op' ∧ Ready op' 3 1 ∧
        op'.Input = scenario.Input ∧
        ∀ b, b < 1 → ∃ m, IsGreatest {y | ∃ j, j < 3 ∧ y = scenario.inputAt (b * 3 + j)} m ∧
          ∀ i, i < 3 →
            op'.outputAt (b * 3 + i) =
              Real.exp (scenario.inputAt (b * 3 + i) - m) /
                ∑ j in Finset.range 3, Real.exp (scenario.inputAt (b * 3 + j) - m) ∧
            op'.outputAt (b * 3 + i) =
              Real.exp (scenario.inputAt (b * 3 + i)) /
                ∑ j in Finset.range 3, Real.exp (scenario.inputAt (b * 3 + j)) :=
  ⟨ready_ofData 3 1 _ _ _ _ rfl rfl rfl rfl (by norm_num), by norm_num,
    evaluate_output_softmax scenario 3 1
      (ready_ofData 3 1 _ _ _ _ rfl rfl rfl rfl (by norm_num)) (by norm_num)⟩

/-- The loss contract on the spec's scenario `V = 3`, `B = 1`. -/
theorem evaluate_cost_neg_log_witness :
    Ready scenario 3 1 ∧ 1 ≤ 3 ∧
      ∃ op', evaluate Real.exp Real.log scenario = .ok op' ∧ Ready op' 3 1 ∧
        op'.Label = scenario.Label ∧
        ∀ b, b < 1 → scenario.labelAt b < 3 →
          op'.costAt b = -Real.log (op'.outputAt (b * 3 + scenario.labelAt b)) :=
  ⟨ready_ofData 3 1 _ _ _ _ rfl rfl rfl rfl (by norm_num), by norm_num,
    evaluate_cost_neg_log scenario 3 1
      (ready_ofData 3 1 _ _ _ _ rfl rfl rfl rfl (by norm_num)) (by norm_num)⟩

/-- The rows of `Output` sum to 1 on the batch of two. -/
theorem evaluate_output_sum_one_witness :
    Ready batchOfTwo 3 2 ∧ 1 ≤ 3 ∧
      ∃ op', evaluate Real.exp Real.log batchOfTwo = .ok op' ∧ Ready op' 3 2 ∧
        ∀ b, b < 2 → ∑ i in Finset.range 3, op'.outputAt (b * 3 + i) = 1 :=
  ⟨ready_ofData 3 2 _ _ _ _ rfl rfl rfl rfl (by norm_num), by norm_num,
    evaluate_output_sum_one batchOfTwo 3 2
      (ready_ofData 3 2 _ _ _ _ rfl rfl rfl rfl (by norm_num)) (by norm_num)⟩

/-- The entries of `Output` are non-negative on the batch of two. -/
theorem evaluate_output_nonneg_witness :
    Ready batchOfTwo 3 2 ∧ 1 ≤ 3 ∧
      ∃ op', evaluate Real.exp Real.log batchOfTwo = .ok op' ∧ Ready op' 3 2 ∧
        ∀ b, b < 2 → ∀ i, i < 3 → 0 ≤ op'.outputAt (b * 3 + i) :=
  ⟨ready_ofData 3 2 _ _ _ _ rfl rfl rfl rfl (by norm_num), by norm_num,
    evaluate_output_nonneg batchOfTwo 3 2
      (ready_ofData 3 2 _ _ _ _ rfl rfl rfl rfl (by norm_num)) (by norm_num)⟩

/-- Adding 1000 to every logit of row 0 of the batch of two changes neither
`Output` nor `Cost`. -/
theorem evaluate_shift_invariant_witness :
    Ready batchOfTwo 3 2 ∧ Ready batchOfTwoShifted 3 2 ∧
      (∀ i, i < 3 →
        batchOfTwoShifted.inputAt (0 * 3 + i) = batchOfTwo.inputAt (0 * 3 + i) + 1000) ∧
      ∃ op' op₂', evaluate Real.exp Real.log batchOfTwo = .ok op' ∧
        evaluate Real.exp Real.log batchOfTwoShifted = .ok op₂' ∧
        op₂'.Output = op'.Output ∧ op₂'.Cost = op'.Cost :=
  have hrow : ∀ i, i < 3 →
      batchOfTwoShifted.inputAt (0 * 3 + i) = batchOfTwo.inputAt (0 * 3 + i) + 1000 := by
    intro i hi
    interval_cases i <;>
      simp [inputAt, batchOfTwo, batchOfTwoShifted, ofData, Tensor.elem] <;> norm_num
  ⟨ready_ofData 3 2 _ _ _ _ rfl rfl rfl rfl (by norm_num),
    ready_ofData 3 2 _ _ _ _ rfl rfl rfl rfl (by norm_num), hrow,
    evaluate_shift_invariant batchOfTwo batchOfTwoShifted 3 2
      (ready_ofData 3 2 _ _ _ _ rfl rfl rfl rfl (by norm_num))
      (ready_ofData 3 2 _ _ _ _ rfl rfl rfl rfl (by norm_num)) (by norm_num)
      (by
        intro b hb
        interval_cases b <;> simp [labelAt, batchOfTwo, ofData, Tensor.elem])
      rfl 0 (by norm_num) 1000 hrow
      (by
        intro b' hb' hne i hi
        interval_cases b'
        · exact absurd rfl hne
        · interval_cases i <;>
            simp [inputAt, batchOfTwo, batchOfTwoShifted, ofData, Tensor.elem])⟩

/-- The cost of an example whose label is out of range, on the state with
`V = 1`, `B = 1`, `Label = [1]` and the positive value 1 in "Cost". -/
theorem evaluate_cost_label_out_of_range_witness :
    Ready labelOutOfRange 1 1 ∧ 1 ≤ labelOutOfRange.labelAt 0 ∧
      0 < labelOutOfRange.costAt 0 ∧
      ∃ op', evaluate Real.exp Real.log labelOutOfRange = .ok op' ∧ Ready op' 1 1 ∧
        ∀ b, b < 1 → 1 ≤ labelOutOfRange.labelAt b → 0 < labelOutOfRange.costAt b →
          ∃ m, IsGreatest {y | ∃ j, j < 1 ∧ y = labelOutOfRange.inputAt (b * 1 + j)} m ∧
            0 < labelOutOfRange.costAt b /
              ∑ j in Finset.range 1, Real.exp (labelOutOfRange.inputAt (b * 1 + j) - m) ∧
            op'.costAt b = -Real.log (labelOutOfRange.costAt b /
              ∑ j in Finset.range 1, Real.exp (labelOutOfRange.inputAt (b * 1 + j) - m)) :=
  ⟨ready_ofData 1 1 _ _ _ _ rfl rfl rfl rfl (by norm_num),
    by simp [labelAt, labelOutOfRange, ofData, Tensor.elem],
    by simp [costAt, labelOutOfRange, ofData, Tensor.elem],
    (evaluate_cost_label_out_of_range labelOutOfRange 1 1
      (ready_ofData 1 1 _ _ _ _ rfl rfl rfl rfl (by norm_num)) (le_refl 1)).1⟩

/-- Whatever "Cost" and "Output" held before, `evaluate` gives the batch of two
the same results, and a second call changes nothing. -/
theorem evaluate_recomputes_witness :
    Ready batchOfTwo 3 2 ∧ Ready batchOfTwoStale 3 2 ∧
      batchOfTwoStale.Input = batchOfTwo.Input ∧ batchOfTwoStale.Label = batchOfTwo.Label ∧
      ∃ op₁' op₂', evaluate Real.exp Real.log batchOfTwo = .ok op₁' ∧
        evaluate Real.exp Real.log batchOfTwoStale = .ok op₂' ∧
        op₂'.Output = op₁'.Output ∧ op₂'.Cost = op₁'.Cost ∧
        evaluate Real.exp Real.log op₁' = .ok op₁' :=
  ⟨ready_ofData 3 2 _ _ _ _ rfl rfl rfl rfl (by norm_num),
    ready_ofData 3 2 _ _ _ _ rfl rfl rfl rfl (by norm_num), rfl, rfl,
    evaluate_recomputes batchOfTwo batchOfTwoStale 3 2
      (ready_ofData 3 2 _ _ _ _ rfl rfl rfl rfl (by norm_num))
      (ready_ofData 3 2 _ _ _ _ rfl rfl rfl rfl (by norm_num)) (by norm_num)
      (by
        intro b hb
        interval_cases b <;> simp [labelAt, batchOfTwo, ofData, Tensor.elem])
      rfl rfl⟩

/-- Row 0 of the batch of two does not depend on row 1, and the two iterations
may be taken in either order. -/
theorem evaluate_rows_independent_witness :
    Ready batchOfTwo 3 2 ∧ Ready batchOfTwoOther 3 2 ∧
      ∃ op₁' op₂', evaluate Real.exp Real.log batchOfTwo = .ok op₁' ∧
        evaluate Real.exp Real.log batchOfTwoOther = .ok op₂' ∧
        Ready op₁' 3 2 ∧ Ready op₂' 3 2 ∧
        (∀ i, i < 3 → op₂'.outputAt (0 * 3 + i) = op₁'.outputAt (0 * 3 + i)) ∧
        op₂'.costAt 0 = op₁'.costAt 0 ∧
        (∃ s, evaluateInOrder Real.exp Real.log [0] batchOfTwo = .ok s ∧ Ready s 3 2 ∧
          ∀ b', b' < 2 → b' ≠ 0 →
            (∀ i, i < 3 → s.outputAt (b' * 3 + i) = batchOfTwo.outputAt (b' * 3 + i)) ∧
            s.costAt b' = batchOfTwo.costAt b') ∧
        (∀ order : List Nat, order.Perm (List.range 2) →
          evaluateInOrder Real.exp Real.log order batchOfTwo = .ok op₁') :=
  ⟨ready_ofData 3 2 _ _ _ _ rfl rfl rfl rfl (by norm_num),
    ready_ofData 3 2 _ _ _ _ rfl rfl rfl rfl (by norm_num),
    evaluate_rows_independent batchOfTwo batchOfTwoOther 3 2
      (ready_ofData 3 2 _ _ _ _ rfl rfl rfl rfl (by norm_num))
      (ready_ofData 3 2 _ _ _ _ rfl rfl rfl rfl (by norm_num)) (by norm_num)
      0 (by norm_num) (by simp [labelAt, batchOfTwo, ofData, Tensor.elem])
      (by
        intro i hi
        interval_cases i <;>
          simp [inputAt, batchOfTwo, batchOfTwoOther, ofData, Tensor.elem])
      (by simp [labelAt, batchOfTwo, batchOfTwoOther, ofData, Tensor.elem])⟩

/-- The scans of batch element 1 of the batch of two, with the real
exponential, are well defined. -/
theorem scans_well_defined_witness :
    Real.exp 0 = 1 ∧ (∀ x : ℝ, x ≤ 0 → 0 ≤ Real.exp x ∧ Real.exp x ≤ 1) ∧
      Ready batchOfTwo 3 2 ∧ 1 ≤ 3 ∧ 1 < 2 ∧
      ∃ input cost output maximum expSum cost' output',
        batchOfTwo.Input = some input ∧ batchOfTwo.Cost = some cost ∧
        batchOfTwo.Output = some output ∧
        (input.read (u32 (1 * 3)) >>= fun maximum0 =>
          forLoop 3 (maxStep input 1 3) 1 maximum0) = .ok maximum ∧
        forLoop 3 (expStep Real.exp input maximum (batchOfTwo.labelAt 1) 1 3) 0
          (0, cost, output) = .ok (expSum, cost', output') ∧
        (∀ i, i < 3 → batchOfTwo.inputAt (1 * 3 + i) - maximum ≤ 0) ∧
        (∃ i, i < 3 ∧ batchOfTwo.inputAt (1 * 3 + i) - maximum = 0) ∧
        (∀ i, i < 3 →
          output'.elem (1 * 3 + i) = Real.exp (batchOfTwo.inputAt (1 * 3 + i) - maximum) ∧
          0 ≤ output'.elem (1 * 3 + i) ∧ output'.elem (1 * 3 + i) ≤ 1 ∧
          ((∀ x, 0 < Real.exp x) → 0 < output'.elem (1 * 3 + i))) ∧
        1 ≤ expSum ∧ expSum ≤ (3 : Nat) ∧ expSum ≠ 0 :=
  ⟨Real.exp_zero, fun x hx => ⟨(Real.exp_pos x).le, Real.exp_le_one_iff.mpr hx⟩,
    ready_ofData 3 2 _ _ _ _ rfl rfl rfl rfl (by norm_num), by norm_num, by norm_num,
    scans_well_defined Real.exp Real.exp_zero
      (fun x hx => ⟨(Real.exp_pos x).le, Real.exp_le_one_iff.mpr hx⟩) batchOfTwo 3 2
      (ready_ofData 3 2 _ _ _ _ rfl rfl rfl rfl (by norm_num)) (by norm_num) 1 (by norm_num)⟩

/-- The general part of the uniform-logits contract on the spec's scenario. -/
theorem uniform_logits_witness :
    Ready uniformScenario 2 2 ∧
      ∃ op', evaluate Real.exp Real.log uniformScenario = .ok op' ∧ Ready op' 2 2 ∧
        ∀ b, b < 2 →
          (∀ i, i < 2 → uniformScenario.inputAt (b * 2 + i) = uniformScenario.inputAt (b * 2)) →
          uniformScenario.labelAt b < 2 →
          (∀ i, i < 2 → op'.outputAt (b * 2 + i) = 1 / (2 : Nat)) ∧
            op'.costAt b = Real.log (2 : Nat) :=
  ⟨ready_ofData 2 2 _ _ _ _ rfl rfl rfl rfl (by norm_num),
    uniform_logits.1 uniformScenario 2 2
      (ready_ofData 2 2 _ _ _ _ rfl rfl rfl rfl (by norm_num)) (by norm_num)⟩

/-- The accelerated `evaluate` matches the reference on the batch of two. -/
theorem cuda_matches_reference_witness :
    init .GPU_CUDA .float (fun _ => true) batchOfTwo = .ok (true, batchOfTwoConfigured) ∧
      Ready batchOfTwoConfigured 3 2 ∧
      ∃ ref acc, evaluate Real.exp Real.log batchOfTwoConfigured = .ok ref ∧
        evaluateCUDA Real.exp Real.log batchOfTwoConfigured = .ok acc ∧
        acc.Output = ref.Output ∧ acc.Cost = ref.Cost :=
  have hr : Ready batchOfTwoConfigured 3 2 :=
    ⟨_, _, _, _, rfl, rfl, rfl, rfl, rfl, rfl, rfl, rfl, rfl, rfl, rfl, rfl, by norm_num⟩
  ⟨rfl, hr,
    cuda_matches_reference .float (fun _ => true) batchOfTwo batchOfTwoConfigured 3 2 rfl hr
      (by norm_num) (by norm_num) (by norm_num)
      (by
        intro b hb
        interval_cases b <;>
          simp [labelAt, batchOfTwoConfigured, batchOfTwo, ofData, Tensor.elem])⟩

/-- The first scan on batch element 1 of the batch of two. -/
theorem first_scan_row_maximum_witness :
    Ready batchOfTwo 3 2 ∧ 1 ≤ 3 ∧ 1 < 2 ∧
      ∃ input maximum, batchOfTwo.Input = some input ∧
        (input.read (u32 (1 * 3)) >>= fun maximum0 =>
          forLoop 3 (maxStep input 1 3) 1 maximum0) = .ok maximum ∧
        (∀ i, i < 3 → batchOfTwo.inputAt (1 * 3 + i) ≤ maximum) ∧
        ∃ k, k < 3 ∧ maximum = batchOfTwo.inputAt (1 * 3 + k) :=
  ⟨ready_ofData 3 2 _ _ _ _ rfl rfl rfl rfl (by norm_num), by norm_num, by norm_num,
    first_scan_row_maximum batchOfTwo 3 2
      (ready_ofData 3 2 _ _ _ _ rfl rfl rfl rfl (by norm_num)) (by norm_num) 1 (by norm_num)⟩

/-- The descriptors that `init` configures for the batch of two. -/
theorem init_descriptors_witness :
    init .GPU_CUDA .float (fun _ => true) batchOfTwo = .ok (true, batchOfTwoConfigured) ∧
      ∃ input V B d, batchOfTwo.Input = some input ∧ input.shape.get 0 = .ok V ∧
        input.shape.get 1 = .ok B ∧
        batchOfTwoConfigured.m_inputGPUTensorDescriptor = some d ∧
        batchOfTwoConfigured.m_outputGPUTensorDescriptor = some d ∧
        d.nbDims = 4 ∧ d.dimA = [toInt B, toInt V, 1, 1] ∧ d.strideA = [toInt V, 1, 1, 1] ∧
        (V < 2 ^ 31 → B < 2 ^ 31 →
          d.dimA = [(B : Int), (V : Int), 1, 1] ∧ d.strideA = [(V : Int), 1, 1, 1] ∧
          d.strideA = denseStrides d.dimA ∧
          ∀ b i : Nat, d.offset [(b : Int), (i : Int), 0, 0] = ((b * V + i : Nat) : Int) ∧
            (b < B → i < V → V * B < 2 ^ 32 →
              d.offset [(b : Int), (i : Int), 0, 0] = ((u32 (b * V + i) : Nat) : Int))) :=
  ⟨rfl, init_descriptors .float (fun _ => true) batchOfTwo batchOfTwoConfigured rfl⟩

/-- The reference `init` accepts the batch of two. -/
theorem init_reference_iff_witness :
    ShapeConditions batchOfTwo ∧
      init .CPU_NAIVE .float (fun _ => true) batchOfTwo = .ok (true, batchOfTwo) :=
  ⟨by decide, (init_reference_iff .float (fun _ => true) batchOfTwo).1 (by decide)⟩

/-- Index safety of `init` and `evaluate` on the batch of two. -/
theorem index_safety_witness :
    init .CPU_NAIVE .float (fun _ => true) batchOfTwo = .ok (true, batchOfTwo) ∧
      (∀ b, b < 2 → ∀ i, i < 3 →
        u32 (b * 3 + i) = b * 3 + i ∧ b * 3 + i < 3 * 2 ∧
        u32 (b * 3 + i) < ([1, 2, 3, 4, 5, 6] : List ℝ).length ∧
        u32 (b * 3 + i) < ([0, 0, 0, 0, 0, 0] : List ℝ).length ∧
        b < ([2, 0] : List Nat).length ∧ b < ([0, 0] : List ℝ).length) ∧
      (∃ op', evaluate Real.exp Real.log batchOfTwo = .ok op') ∧
      (∀ (dev : DeviceType) (st : SoftmaxLogLoss ℝ),
        init dev .float (fun _ => true) st ≠ .error .outOfRange) :=
  ⟨rfl, index_safety Real.exp Real.log .CPU_NAIVE .float (fun _ => true) batchOfTwo batchOfTwo
    ⟨⟨[3, 2]⟩, [1, 2, 3, 4, 5, 6]⟩ ⟨⟨[1, 2]⟩, [2, 0]⟩ ⟨⟨[1, 2]⟩, [0, 0]⟩
    ⟨⟨[3, 2]⟩, [0, 0, 0, 0, 0, 0]⟩ 3 2 rfl rfl rfl rfl rfl rfl rfl rfl rfl rfl rfl
    (by norm_num) (by norm_num)⟩

/-- Range of the results on the batch with logits far apart, with an
exponential that underflows below -746. -/
theorem evaluate_loss_nonneg_witness :
    underflowing Real.exp (-746) 0 = 1 ∧
      (∀ x : ℝ, x ≤ 0 →
        0 ≤ underflowing Real.exp (-746) x ∧ underflowing Real.exp (-746) x ≤ 1) ∧
      Ready underflowScenario 3 2 ∧ 1 ≤ 3 ∧
      (∃ op', evaluate (underflowing Real.exp (-746)) Real.log underflowScenario = .ok op' ∧
        Ready op' 3 2 ∧
        ∀ b, b < 2 → underflowScenario.labelAt b < 3 →
          (∀ i, i < 3 → 0 ≤ op'.outputAt (b * 3 + i) ∧ op'.outputAt (b * 3 + i) ≤ 1) ∧
          (0 < op'.outputAt (b * 3 + underflowScenario.labelAt b) → 0 ≤ op'.costAt b) ∧
          (3 = 1 → op'.costAt b = 0)) ∧
      (∃ op', evaluate Real.exp Real.log underflowScenario = .ok op' ∧ Ready op' 3 2 ∧
        ∀ b, b < 2 → underflowScenario.labelAt b < 3 →
          (∀ i, i < 3 → 0 < op'.outputAt (b * 3 + i) ∧ op'.outputAt (b * 3 + i) ≤ 1) ∧
          0 ≤ op'.costAt b ∧ (op'.costAt b = 0 ↔ 3 = 1)) :=
  ⟨(underflowing_range (-746) (by norm_num)).1, (underflowing_range (-746) (by norm_num)).2,
    ready_ofData 3 2 _ _ _ _ rfl rfl rfl rfl (by norm_num), by norm_num,
    evaluate_loss_nonneg (underflowing Real.exp (-746))
      (underflowing_range (-746) (by norm_num)).1 (underflowing_range (-746) (by norm_num)).2
      underflowScenario 3 2
      (ready_ofData 3 2 _ _ _ _ rfl rfl rfl rfl (by norm_num)) (by norm_num)⟩

end SoftmaxLogLoss

end FreeWill
